import Mathlib

/-!
The program go-erd: the collector, the dependency resolver and the diagram
renderer of `main.go`.

A shallow embedding of `toString`, `dependsOn`, `dedup`, `escape`, `dotRender`,
`inspectDir` and `main`, followed by the properties established about them.

Conventions of the embedding.

* A Go `string` is a Lean `String`; `escape` works on its characters. Every
  character that `escape` looks for is ASCII, so replacing bytes (Go) and
  replacing characters (here) agree.
* A Go `map` is an association list. The order of the list stands for the order
  in which one `range` loop visits the map, which Go leaves unspecified; the
  properties below are stated through membership, so they hold for every order.
* The tree handed over by `go/parser` is the type `Node`. A pointer that the
  source tests against `nil` is an `Option`; dereferencing such a pointer
  without a test is a run-time panic, rendered as the result `none`.
* The output of `dotRender` is the list of its `fmt.Fprintf` calls, each
  recorded with the arguments it was given (`Stmt`).
* `parser.ParseDir` and the file system are a parameter of `inspectDir` and
  `main`; the recursion of `inspectDir` on the imports is bounded by a fuel.
-/

namespace GoErd

/-- The expression kinds of `go/ast` that no `switch` of `main.go` names. -/
inductive OtherKind where
  | BadExpr | BasicLit | FuncLit | CompositeLit | ParenExpr | IndexExpr
  | IndexListExpr | SliceExpr | TypeAssertExpr | CallExpr | UnaryExpr
  | BinaryExpr | KeyValueExpr
  deriving DecidableEq, Repr

/-- Go type name of an expression kind, as `%#v` prints it after `&ast.`. -/
def OtherKind.goName : OtherKind → String
  | .BadExpr => "BadExpr"
  | .BasicLit => "BasicLit"
  | .FuncLit => "FuncLit"
  | .CompositeLit => "CompositeLit"
  | .ParenExpr => "ParenExpr"
  | .IndexExpr => "IndexExpr"
  | .IndexListExpr => "IndexListExpr"
  | .SliceExpr => "SliceExpr"
  | .TypeAssertExpr => "TypeAssertExpr"
  | .CallExpr => "CallExpr"
  | .UnaryExpr => "UnaryExpr"
  | .BinaryExpr => "BinaryExpr"
  | .KeyValueExpr => "KeyValueExpr"

/-- The dynamic values that reach `toString` and `dependsOn` (their parameter is
`interface{}`): the untyped `nil`, and pointers to `go/ast` nodes.

An `*ast.FieldList` is the list of its entries, each entry `*ast.Field` being the
pair of its `Names` (the `Name` of every identifier) and its `Type`. `Params`,
`Results` and `Methods` are tested against `nil` by the source and are options;
`StructType.Fields` is never tested and is always allocated by the parser.
`dump` is the text that the verb `%#v` prints between the braces for a node that
falls into a `default` arm: token positions and pointer addresses, fixed for one
run of the program. -/
inductive Node where
  | nil
  | Ident (Name : String)
  | SelectorExpr (X : Node) (Sel : String)
  | Object (Name : String)
  | Field (Names : List String) (Typ : Node)
  | StarExpr (X : Node)
  | MapType (Key Value : Node)
  | ChanType (Value : Node)
  | InterfaceType (Methods : Option (List (List String × Node)))
  | StructType (Fields : List (List String × Node))
  | Ellipsis (dump : String) (Elt : Node)
  | FuncType (Params Results : Option (List (List String × Node)))
  | ArrayType (Len Elt : Node)
  | Other (kind : OtherKind) (dump : String)

instance : Inhabited Node := ⟨Node.nil⟩

/-- One entry of an `*ast.FieldList`: the names sharing a type, and the type. -/
abbrev FieldEntry := List String × Node

/-- Result of `fmt.Sprintf("%#v", n)` for `n` a non-nil pointer to the `go/ast`
struct called `typeName`: an ampersand, the qualified type name and the field
dump in braces. -/
def goSyntax (typeName dump : String) : String :=
  "&ast." ++ typeName ++ "\x7b" ++ dump ++ "\x7d"

mutual
/-- Source `toString` (main.go 255-313). `toString(t.Sel)` is the name of the
selected identifier; the `default` arm is reached by the `Other` kinds only. -/
def toString : Node → String
  | .nil => "nil"
  | .Ident name => name
  | .SelectorExpr x sel => toString x ++ "." ++ sel
  | .Object name => name
  | .StarExpr x => "*" ++ toString x
  | .InterfaceType _ => "interface\x7b\x7d"
  | .MapType k v => "map[" ++ toString k ++ "]" ++ toString v
  | .ChanType v => "chan " ++ toString v
  | .StructType _ => "struct \x7b\x7d"
  | .Ellipsis _ elt => "..." ++ toString elt
  | .Field _ typ => toString typ
  | .FuncType params results =>
      "func(" ++ toStringParams params ++ ")" ++ toStringResults results
  | .ArrayType _ elt => "[]" ++ toString elt
  | .Other kind dump => goSyntax kind.goName dump
/-- The guarded parameter loop of `toString` (main.go 286-293). -/
def toStringParams : Option (List FieldEntry) → String
  | none => ""
  | some l => toStringFields 0 l
/-- The guarded result loop of `toString` (main.go 296-305): nothing is printed
for an absent or empty list. -/
def toStringResults : Option (List FieldEntry) → String
  | none => ""
  | some [] => ""
  | some (r :: rs) => " (" ++ toStringFields 0 (r :: rs) ++ ")"
/-- Loop body `if i > 0 { ", " }; toString(p)` from index `i` on; `toString` of
a field is `toString` of its type. -/
def toStringFields : Nat → List FieldEntry → String
  | _, [] => ""
  | i, p :: ps =>
      (if i > 0 then ", " else "") ++ toString p.2 ++ toStringFields (i + 1) ps
end

mutual
/-- Source `dependsOn` (main.go 316-371). There is no arm for `*ast.Ellipsis`:
it falls, like the `Other` kinds, into `default`. -/
def dependsOn : Node → List String
  | .nil => []
  | .Ident name => [name]
  | .SelectorExpr x sel => [toString x ++ "." ++ sel]
  | .Object name => [name]
  | .Field _ typ => dependsOn typ
  | .StarExpr x => dependsOn x
  | .MapType k v => dependsOn k ++ dependsOn v
  | .ChanType v => dependsOn v
  | .InterfaceType none => []
  | .InterfaceType (some methods) => dependsOnFields methods
  | .StructType fields => dependsOnFields fields
  | .FuncType params results =>
      dependsOnFieldList params ++ dependsOnFieldList results
  | .ArrayType _ elt => dependsOn elt
  | .Ellipsis dump _ => [goSyntax "Ellipsis" dump]
  | .Other kind dump => [goSyntax kind.goName dump]
/-- The loop `if l != nil { for _, v := range l.List { ... } }`. -/
def dependsOnFieldList : Option (List FieldEntry) → List String
  | none => []
  | some l => dependsOnFields l
/-- The loop `for _, v := range list { types = append(types, dependsOn(v.Type)...) }`. -/
def dependsOnFields : List FieldEntry → List String
  | [] => []
  | v :: rest => dependsOn v.2 ++ dependsOnFields rest
end

/-- Source `dedup` (main.go 373-383). The map `x` is the list of its keys in
order of first insertion, and the final `range` visits them in that order. -/
def dedup (strs : List String) : List String :=
  strs.foldl (fun x s => if s ∈ x then x else x ++ [s]) []

/-- The call `strings.Replace(s, string(ch), new, -1)` on the characters of `s`,
for a pattern of one character. -/
def replaceAll (ch : Char) (new : List Char) : List Char → List Char
  | [] => []
  | c :: cs => if c = ch then new ++ replaceAll ch new cs else c :: replaceAll ch new cs

/-- The string ranged over by `escape`: space, single quote, backquote,
brackets, braces, parentheses, asterisk. -/
def escapeSet : List Char := " '`[]\x7b\x7d()*".data

/-- The loop of `escape` on the characters of `s`. -/
def escapeChars (s : List Char) : List Char :=
  escapeSet.foldl (fun s ch => replaceAll ch ['\\', ch] s) s

/-- Source `escape` (main.go 247-253). -/
def escape (s : String) : String := ⟨escapeChars s.data⟩

/-- Source `namedType` (main.go 53-56); `Ident` holds `Ident.Name`. -/
structure namedType where
  Ident : String
  Typ : Node

/-- The registry `map[string]map[string]namedType`. -/
abbrev Registry := List (String × List (String × namedType))

/-- Assignment `m[k] = v` on a map: an existing key keeps its place. -/
def mapSet {β : Type} : List (String × β) → String → β → List (String × β)
  | [], k, v => [(k, v)]
  | (k', v') :: rest, k, v =>
      if k' = k then (k, v) :: rest else (k', v') :: mapSet rest k v

/-- The test `_, ok := m[k]`. -/
def mapHas {β : Type} (m : List (String × β)) (k : String) : Bool :=
  (m.lookup k).isSome

/-- The flattened index `flatTypes` of `dotRender` (main.go 61-69). -/
def flatTypes (pkgTypes : Registry) : List (String × namedType) :=
  pkgTypes.foldl
    (fun flat pkg =>
      pkg.2.foldl
        (fun flat entry =>
          mapSet (mapSet flat entry.1 entry.2) (pkg.1 ++ "." ++ entry.1) entry.2)
        flat)
    []

/-- One `fmt.Fprintf` call of `dotRender`, with its arguments.

* `digraphOpen`: `"digraph %q { \n"` with `"GoERD"`;
* `subgraphOpen c`: `"subgraph %q {\n"` with `c`;
* `label p`: `"label=%q;\n"` with `p`;
* `node pkg name shape label`: `" \"node-%s.%s\" [shape=<shape>,label=\"<label>\"];\n"`,
  where `label` is the whole text between the quotes;
* `missed text typ`: `"MISSED: %s: %#v\n "` on the error stream;
* `subgraphClose`, `digraphClose`: the closing braces;
* `edge pkg name i target`: `"%s -> %q;\n"` with
  `from = Sprintf("\"node-%s.%s\":f%d", pkg, name, i)` and `to = target`. -/
inductive Stmt where
  | digraphOpen
  | subgraphOpen (cluster : String)
  | label (pkg : String)
  | node (pkg name shape label : String)
  | missed (text : String) (typ : namedType)
  | subgraphClose
  | edge (pkg name : String) (i : Nat) (target : String)
  | digraphClose

/-- The id of the node statement of declaration `name` in package `pkg`. -/
def nodeId (pkg name : String) : String := "node-" ++ pkg ++ "." ++ name

/-- Name loop of an interface compartment (main.go 110-115): the name, then a
comma when the index is positive. -/
def interfaceNames : Nat → List String → String
  | _, [] => ""
  | ii, n :: ns => n ++ (if ii > 0 then "," else "") ++ interfaceNames (ii + 1) ns

/-- Method loop of an interface label (main.go 104-120). -/
def interfaceCompartments : Nat → List FieldEntry → String
  | _, [] => ""
  | i, f :: fs =>
      (if i > 0 then "|" else "") ++ "<f" ++ Nat.repr i ++ ">"
        ++ interfaceNames 0 f.1 ++ (if f.1.length > 0 then " " else "")
        ++ toString f.2 ++ interfaceCompartments (i + 1) fs

/-- Name loop of a struct compartment (main.go 130-135): a comma and a space
when the index is positive, then the name. -/
def structNames : Nat → List String → String
  | _, [] => ""
  | ii, n :: ns => (if ii > 0 then ", " else "") ++ n ++ structNames (ii + 1) ns

/-- Field loop of a struct label (main.go 124-140). -/
def structCompartments : Nat → List FieldEntry → String
  | _, [] => ""
  | i, f :: fs =>
      (if i > 0 then "|" else "") ++ "<f" ++ Nat.repr i ++ ">"
        ++ structNames 0 f.1 ++ (if f.1.length > 0 then " " else "")
        ++ toString f.2 ++ structCompartments (i + 1) fs

/-- The node `switch` of `dotRender` (main.go 83-144) for one declaration;
`none` is the nil dereference `t.Methods.List`. -/
def nodeStmt (pkg : String) (typ : namedType) : Option Stmt :=
  match typ.Typ with
  | .Ident name =>
      some (.node pkg typ.Ident "ellipse" (escape (typ.Ident ++ " " ++ name)))
  | .SelectorExpr x sel =>
      some (.node pkg typ.Ident "ellipse"
        (escape (typ.Ident ++ " " ++ toString (.SelectorExpr x sel))))
  | .ChanType v =>
      some (.node pkg typ.Ident "box" (escape (typ.Ident ++ " " ++ toString (.ChanType v))))
  | .FuncType ps rs =>
      some (.node pkg typ.Ident "rectangle"
        (escape (typ.Ident ++ " " ++ toString (.FuncType ps rs))))
  | .ArrayType len elt =>
      some (.node pkg typ.Ident "rectangle"
        (escape (typ.Ident ++ " " ++ toString (.ArrayType len elt))))
  | .MapType k v =>
      some (.node pkg typ.Ident "rectangle"
        (escape (typ.Ident ++ " " ++ toString (.MapType k v))))
  | .InterfaceType none => none
  | .InterfaceType (some methods) =>
      some (.node pkg typ.Ident "Mrecord"
        ("\x7b" ++ escape (typ.Ident ++ " interface|" ++ interfaceCompartments 0 methods)
          ++ "\x7d"))
  | .StructType fields =>
      some (.node pkg typ.Ident "record"
        ("\x7b" ++ escape (typ.Ident ++ "|" ++ structCompartments 0 fields) ++ "\x7d"))
  | t => some (.missed (toString t) typ)

/-- The loop `for _, typ := range types` of the node pass. -/
def nodeStmts (pkg : String) : List (String × namedType) → Option (List Stmt)
  | [] => some []
  | entry :: rest =>
      match nodeStmt pkg entry.2, nodeStmts pkg rest with
      | some s, some ss => some (s :: ss)
      | _, _ => none

/-- The node pass (main.go 72-147): one cluster per package. -/
def nodePass : Registry → Option (List Stmt)
  | [] => some []
  | pkg :: rest =>
      match nodeStmts pkg.1 pkg.2, nodePass rest with
      | some ns, some more =>
          some (.subgraphOpen ("cluster_" ++ pkg.1) :: .label pkg.1 :: ns
            ++ .subgraphClose :: more)
      | _, _ => none

/-- The test `strings.Contains(typ, ".")`. -/
def containsDot (typ : String) : Bool := typ.data.contains '.'

/-- The edge loop of the `FuncType` and `ChanType` arms (main.go 155-161 and
163-169) over `dependsOn(t)` from index `i` on: the name is looked up and
printed as it is. -/
def directEdges (flat : List (String × namedType)) (pkg name : String) :
    Nat → List String → List Stmt
  | _, [] => []
  | i, typ :: rest =>
      (if mapHas flat typ then [Stmt.edge pkg name i ("node-" ++ typ)] else [])
        ++ directEdges flat pkg name (i + 1) rest

/-- The step `if !strings.Contains(typ, ".") { typ = Sprintf("%s.%s", pkg, typ) }`
(main.go 175-177 and 188-190). -/
def qualify (pkg typ : String) : String :=
  if !containsDot typ then pkg ++ "." ++ typ else typ

/-- The inner loop of the `InterfaceType` and `StructType` arms (main.go 173-181
and 186-194) over `dedup(dependsOn(f.Type))`: the name is looked up as it is,
and qualified with the package afterwards when it has no dot. -/
def compartmentEdges (flat : List (String × namedType)) (pkg name : String) (i : Nat) :
    List String → List Stmt
  | [] => []
  | typ :: rest =>
      (if mapHas flat typ then
        [Stmt.edge pkg name i ("node-" ++ qualify pkg typ)]
      else [])
        ++ compartmentEdges flat pkg name i rest

/-- The outer loop `for i, f := range list` of the `InterfaceType` and
`StructType` arms, from index `i` on. -/
def fieldEdges (flat : List (String × namedType)) (pkg name : String) :
    Nat → List FieldEntry → List Stmt
  | _, [] => []
  | i, f :: fs =>
      compartmentEdges flat pkg name i (dedup (dependsOn f.2))
        ++ fieldEdges flat pkg name (i + 1) fs

/-- The edge `switch` of `dotRender` (main.go 152-196) for one declaration;
`none` is the nil dereference `t.Methods.List`. -/
def edgeStmts (flat : List (String × namedType)) (pkg : String) (ptype : namedType) :
    Option (List Stmt) :=
  match ptype.Typ with
  | .FuncType ps rs => some (directEdges flat pkg ptype.Ident 0 (dependsOn (.FuncType ps rs)))
  | .ChanType v => some (directEdges flat pkg ptype.Ident 0 (dependsOn (.ChanType v)))
  | .InterfaceType none => none
  | .InterfaceType (some methods) => some (fieldEdges flat pkg ptype.Ident 0 methods)
  | .StructType fields => some (fieldEdges flat pkg ptype.Ident 0 fields)
  | _ => some []

/-- The loop `for _, ptype := range types` of the edge pass. -/
def pkgEdges (flat : List (String × namedType)) (pkg : String) :
    List (String × namedType) → Option (List Stmt)
  | [] => some []
  | entry :: rest =>
      match edgeStmts flat pkg entry.2, pkgEdges flat pkg rest with
      | some es, some more => some (es ++ more)
      | _, _ => none

/-- The edge pass (main.go 148-199). -/
def edgePass (flat : List (String × namedType)) : Registry → Option (List Stmt)
  | [] => some []
  | pkg :: rest =>
      match pkgEdges flat pkg.1 pkg.2, edgePass flat rest with
      | some es, some more => some (es ++ more)
      | _, _ => none

/-- Source `dotRender` (main.go 58-201): the statements written, or `none` when
the run panics. -/
def dotRender (pkgTypes : Registry) : Option (List Stmt) :=
  match nodePass pkgTypes, edgePass (flatTypes pkgTypes) pkgTypes with
  | some nodes, some edges => some (.digraphOpen :: nodes ++ edges ++ [.digraphClose])
  | _, _ => none

/-! ## Vocabulary of the properties -/

/-- The ids of the node statements of an output, in order. -/
def nodeIds : List Stmt → List String
  | [] => []
  | .node pkg name _ _ :: rest => nodeId pkg name :: nodeIds rest
  | _ :: rest => nodeIds rest

/-- The declarations reported on the error stream, in order. -/
def missedDecls : List Stmt → List namedType
  | [] => []
  | .missed _ typ :: rest => typ :: missedDecls rest
  | _ :: rest => missedDecls rest

/-- The edge statements of an output, in order: package, declaration,
compartment index and target. -/
def edgesOf : List Stmt → List (String × String × Nat × String)
  | [] => []
  | .edge pkg name i target :: rest => (pkg, name, i, target) :: edgesOf rest
  | _ :: rest => edgesOf rest

/-- The declarations of a registry, each with its package, in the order of the
two nested `range` loops. -/
def declarations (reg : Registry) : List (String × namedType) :=
  reg.flatMap (fun pkg => pkg.2.map (fun entry => (pkg.1, entry.2)))

/-- The shapes that have an arm in the node `switch` of `dotRender`. -/
def recognized : Node → Bool
  | .Ident _ => true
  | .SelectorExpr _ _ => true
  | .ChanType _ => true
  | .FuncType _ _ => true
  | .ArrayType _ _ => true
  | .MapType _ _ => true
  | .InterfaceType _ => true
  | .StructType _ => true
  | _ => false

/-- What `inspectDir` and Go maps guarantee of a registry: package names are
distinct keys, and inside a package the declaration names are distinct keys,
each entry being stored under the name of its own identifier (main.go 228). -/
def WellFormed (reg : Registry) : Prop :=
  (reg.map Prod.fst).Nodup ∧
    ∀ pkg ∈ reg, (pkg.2.map Prod.fst).Nodup ∧ ∀ entry ∈ pkg.2, entry.2.Ident = entry.1

/-- No interface declaration of the registry has a nil method list: `go/parser`
allocates the list of every interface type it builds. -/
def MethodsAllocated (reg : Registry) : Prop :=
  ∀ d ∈ declarations reg, d.2.Typ ≠ .InterfaceType none

/-- A wrapper shape around a type expression: pointer, array or slice (with its
length expression), channel, field (with its names). -/
inductive Wrapper where
  | pointer
  | array (len : Node)
  | chan
  | field (names : List String)

/-- The expression obtained by nesting the wrappers, outermost first, around
`base`. -/
def wrap : List Wrapper → Node → Node
  | [], base => base
  | .pointer :: ws, base => .StarExpr (wrap ws base)
  | .array len :: ws, base => .ArrayType len (wrap ws base)
  | .chan :: ws, base => .ChanType (wrap ws base)
  | .field names :: ws, base => .Field names (wrap ws base)

/-- The shapes that reach the `default` arm of `dependsOn`. -/
def inDefaultArm : Node → Bool
  | .Ellipsis _ _ => true
  | .Other _ _ => true
  | _ => false

/-- One pass of escaping on one character: a backslash in front of a character
of the escape set, any other character unchanged. -/
def escapeOne (c : Char) : List Char :=
  if c ∈ escapeSet then ['\\', c] else [c]

/-- Whether a text starts with a character of the escape set. -/
def startsWithEscaped : List Char → Bool
  | [] => false
  | d :: _ => decide (d ∈ escapeSet)

/-- Deletion of every backslash that immediately precedes a character of the
escape set. -/
def unescape : List Char → List Char
  | [] => []
  | c :: rest =>
      if c = '\\' ∧ startsWithEscaped rest = true then unescape rest else c :: unescape rest

/-- Package `a` declares `type S struct { f B }`; `B` is declared in package
`b` only. -/
def regCrossPackage : Registry :=
  [("a", [("S", ⟨"S", .StructType [(["f"], .Ident "B")]⟩)]),
   ("b", [("B", ⟨"B", .Ident "int"⟩)])]

/-- Package `p` declares `type Handler func(Point) error` and
`type Point struct { X, Y int }`. -/
def regHandler : Registry :=
  [("p", [("Handler", ⟨"Handler",
            .FuncType (some [([], .Ident "Point")]) (some [([], .Ident "error")])⟩),
          ("Point", ⟨"Point", .StructType [(["X", "Y"], .Ident "int")]⟩)])]

/-- The type `func(...Point)`; the text is what `%#v` prints for the fields of
the ellipsis node in one run. -/
def variadicPoint : Node :=
  .FuncType (some [([], .Ellipsis "Ellipsis:17, Elt:(*ast.Ident)(0xc000010020)" (.Ident "Point"))])
    none

/-- The node statements of an output, in order: package, declaration, shape
and label. -/
def nodesOf : List Stmt → List (String × String × String × String)
  | [] => []
  | .node pkg name shape label :: rest => (pkg, name, shape, label) :: nodesOf rest
  | _ :: rest => nodesOf rest

/-- Text of compartment `i` of a struct node, in the words of the
specification: the tag, the names joined by a comma and a space, a space when
there is a name, the text of the type. -/
def structCompartment (i : Nat) (f : FieldEntry) : String :=
  "<f" ++ Nat.repr i ++ ">" ++ ", ".intercalate f.1
    ++ (if f.1.length > 0 then " " else "") ++ toString f.2

/-- Label of a struct node, in the words of the specification: the escaped
text of the name and of the compartments, joined by bars, between braces. -/
def structLabel (name : String) (fields : List FieldEntry) : String :=
  "\x7b"
    ++ escape (name ++ "|"
        ++ "|".intercalate (fields.enum.map (fun p => structCompartment p.1 p.2)))
    ++ "\x7d"

/-- Package `p` declares `type Point struct { X, Y int }`. -/
def regPoint : Registry :=
  [("p", [("Point", ⟨"Point", .StructType [(["X", "Y"], .Ident "int")]⟩)])]

/-- The assignments `flatTypes[k] = v` of `dotRender` (main.go 66-67), in the
order in which the two nested loops perform them. -/
def flatAssignments (reg : Registry) : List (String × namedType) :=
  reg.flatMap (fun pkg =>
    pkg.2.flatMap (fun entry => [(entry.1, entry.2), (pkg.1 ++ "." ++ entry.1, entry.2)]))

/-- No package name and no declaration name of the registry contains a dot, as
is the case of Go identifiers. -/
def NoDots (reg : Registry) : Prop :=
  ∀ pkg ∈ reg, containsDot pkg.1 = false ∧ ∀ entry ∈ pkg.2, containsDot entry.1 = false

/-- Packages `pkgA` and `pkgB` each declare `Config`; in `pkgB` it is the
pointer type `type Config *int`. Package `pkgA` also declares
`type S struct { c pkgB.Config }`. -/
def regConfigPointer : Registry :=
  [("pkgA", [("Config", ⟨"Config", .StructType []⟩),
             ("S", ⟨"S", .StructType [(["c"], .SelectorExpr (.Ident "pkgB") "Config")]⟩)]),
   ("pkgB", [("Config", ⟨"Config", .StarExpr (.Ident "int")⟩)])]

/-- Packages `pkgA` and `pkgB` each declare `type Config struct {}`; package
`pkgA` also declares `type S struct { remote pkgB.Config; local Config }`. -/
def regConfigs : Registry :=
  [("pkgA", [("Config", ⟨"Config", .StructType []⟩),
             ("S", ⟨"S", .StructType [(["remote"], .SelectorExpr (.Ident "pkgB") "Config"),
                                      (["local"], .Ident "Config")]⟩)]),
   ("pkgB", [("Config", ⟨"Config", .StructType []⟩)])]

/-- The statements written for `regConfigs`. -/
def outConfigs : List Stmt :=
  [.digraphOpen, .subgraphOpen "cluster_pkgA", .label "pkgA",
   .node "pkgA" "Config" "record" "\x7bConfig|\x7d",
   .node "pkgA" "S" "record" "\x7bS|<f0>remote\\ pkgB.Config|<f1>local\\ Config\x7d",
   .subgraphClose, .subgraphOpen "cluster_pkgB", .label "pkgB",
   .node "pkgB" "Config" "record" "\x7bConfig|\x7d", .subgraphClose,
   .edge "pkgA" "S" 0 "node-pkgB.Config", .edge "pkgA" "S" 1 "node-pkgA.Config",
   .digraphClose]

/-- Package `pkgA` declares `type Config struct {}` and
`type S struct { m map[Config]pkgA.Config }`. -/
def regDoubleConfig : Registry :=
  [("pkgA", [("Config", ⟨"Config", .StructType []⟩),
             ("S", ⟨"S", .StructType
                [(["m"], .MapType (.Ident "Config") (.SelectorExpr (.Ident "pkgA") "Config"))]⟩)])]

/-- Package `p` declares `type F func(Point, Point)`, `type Point struct {}` and
`type C chan map[Point]Point`. -/
def regTwoPoints : Registry :=
  [("p", [("F", ⟨"F", .FuncType (some [([], .Ident "Point"), ([], .Ident "Point")]) none⟩),
          ("Point", ⟨"Point", .StructType []⟩),
          ("C", ⟨"C", .ChanType (.MapType (.Ident "Point") (.Ident "Point"))⟩)])]

/-- Package `p` declares an interface `I` with one method entry that carries the
two names `a` and `b` and the type `func()`. -/
def regTwoNames : Registry :=
  [("p", [("I", ⟨"I", .InterfaceType (some [(["a", "b"], .FuncType (some []) none)])⟩)])]

/-- The shapes that have an arm in the edge `switch` of `dotRender`. -/
def edgeShape : Node → Bool
  | .FuncType _ _ => true
  | .ChanType _ => true
  | .InterfaceType _ => true
  | .StructType _ => true
  | _ => false

/-- Package `p` declares `type Points []Point`, `type Point int`,
`type Index map[string]Point` and `type Alias q.Point`. -/
def regAliases : Registry :=
  [("p", [("Points", ⟨"Points", .ArrayType .nil (.Ident "Point")⟩),
          ("Point", ⟨"Point", .Ident "int"⟩),
          ("Index", ⟨"Index", .MapType (.Ident "string") (.Ident "Point")⟩),
          ("Alias", ⟨"Alias", .SelectorExpr (.Ident "q") "Point"⟩)])]

/-- One package of the map returned by `parser.ParseDir`, as far as `inspectDir`
uses it: the type specifications that `ast.Inspect` meets in the files of the
package (name and type, in visiting order), and the keys of `pkg.Imports`. -/
structure ParsedPackage where
  specs : List (String × Node)
  imports : List String

/-- The call `parser.ParseDir(fset, path, filter, 0)`: `none` for a parse error,
otherwise the packages of the directory with their names. -/
abbrev ParseDir := String → Option (List (String × ParsedPackage))

/-- The bucket that `inspectDir` fills for one package (main.go 217-237): every
type specification is stored under its name, a later one replacing an earlier
one of the same name. -/
def inspectBucket (specs : List (String × Node)) : List (String × namedType) :=
  specs.foldl (fun bucket spec => mapSet bucket spec.1 ⟨spec.1, spec.2⟩) []

/-- Source `inspectDir` (main.go 203-245). A parse error ends the run
(`log.Fatal`), also inside the calls on the imports, whose results are not used;
`none` is that end, or the exhaustion of the fuel that bounds the recursion. -/
def inspectDir (parseDir : ParseDir) : Nat → String → Option Registry
  | 0, _ => none
  | fuel + 1, path =>
      match parseDir path with
      | none => none
      | some pkgmap =>
          if pkgmap.all (fun pkg =>
              pkg.2.imports.all (fun n => (inspectDir parseDir fuel n).isSome)) then
            some (pkgmap.foldl (fun types pkg => mapSet types pkg.1 (inspectBucket pkg.2.specs))
              [])
          else none

/-- The loop of `main` over the paths (main.go 44-48), from the registry
`pkgTypes` built so far. -/
def pkgTypesOf (parseDir : ParseDir) (fuel : Nat) : List String → Registry → Option Registry
  | [], pkgTypes => some pkgTypes
  | path :: rest, pkgTypes =>
      match inspectDir parseDir fuel path with
      | none => none
      | some found =>
          pkgTypesOf parseDir fuel rest
            (found.foldl (fun pkgTypes entry => mapSet pkgTypes entry.1 entry.2) pkgTypes)

/-- Source `main` (main.go 30-51), from the list of the `-path` options: the
statements written, or `none` when the run ends before (no path, parse error,
panic). -/
def main (parseDir : ParseDir) (fuel : Nat) (paths : List String) : Option (List Stmt) :=
  if paths.length = 0 then none
  else
    match pkgTypesOf parseDir fuel paths [] with
    | none => none
    | some pkgTypes => dotRender pkgTypes

/-- Two directories that both hold a package `p`: `dir1` declares `Old` and
`Shared`, `dir2` declares `New` and `Shared`; neither has imports. -/
def parseTwoDirs : ParseDir := fun path =>
  if path = "dir1" then
    some [("p", ⟨[("Old", .Ident "int"), ("Shared", .Ident "int")], []⟩)]
  else if path = "dir2" then
    some [("p", ⟨[("New", .Ident "string"), ("Shared", .Ident "string")], []⟩)]
  else none

/-- Text of compartment `i` of an interface node, in the words of the
specification: the tag, the names joined by a comma, a space when there is a
name, the text of the type. -/
def interfaceCompartment (i : Nat) (f : FieldEntry) : String :=
  "<f" ++ Nat.repr i ++ ">" ++ ",".intercalate f.1
    ++ (if f.1.length > 0 then " " else "") ++ toString f.2

/-- Label of an interface node, in the words of the specification: the escaped
text of the name, the word `interface` and the compartments, joined by bars,
between braces. -/
def interfaceLabel (name : String) (methods : List FieldEntry) : String :=
  "\x7b"
    ++ escape (name ++ " interface|"
        ++ "|".intercalate (methods.enum.map (fun p => interfaceCompartment p.1 p.2)))
    ++ "\x7d"

/-- The method entries that `go/parser` builds for an interface type: a method
has exactly one name and an embedded type has none. -/
def ParsedMethods (methods : List FieldEntry) : Prop :=
  ∀ f ∈ methods, f.1.length ≤ 1

/-- Package `p` declares
`type Shape interface { Area() float64; Scale(by float64) Shape; Stringer }`. -/
def regShape : Registry :=
  [("p", [("Shape", ⟨"Shape", .InterfaceType (some
      [(["Area"], .FuncType (some []) (some [([], .Ident "float64")])),
       (["Scale"], .FuncType (some [(["by"], .Ident "float64")]) (some [([], .Ident "Shape")])),
       ([], .Ident "Stringer")])⟩)])]

/-- The statements written for `regShape`. -/
def outShape : List Stmt :=
  [.digraphOpen, .subgraphOpen "cluster_p", .label "p",
   .node "p" "Shape" "Mrecord"
     "\x7bShape\\ interface|<f0>Area\\ func\\(\\)\\ \\(float64\\)|<f1>Scale\\ func\\(float64\\)\\ \\(Shape\\)|<f2>Stringer\x7d",
   .subgraphClose, .edge "p" "Shape" 1 "node-p.Shape", .digraphClose]

/-! ## Auxiliary lemmas -/

/-! ### The resolver -/

theorem dependsOn_wrap (ws : List Wrapper) (base : Node) :
    dependsOn (wrap ws base) = dependsOn base := by
  induction ws with
  | nil => rfl
  | cons w ws ih => cases w <;> simpa [wrap, dependsOn] using ih

theorem goSyntax_length_pos (t d : String) : 0 < (goSyntax t d).length := by
  have h5 : "&ast.".length = 5 := by decide
  simp only [goSyntax, String.length_append, h5]
  omega

theorem goSyntax_ne_empty (t d : String) : goSyntax t d ≠ "" := by
  intro h
  have hpos := goSyntax_length_pos t d
  rw [h] at hpos
  exact absurd hpos (by decide)

theorem dependsOnFields_eq (l : List FieldEntry) :
    dependsOnFields l = (l.map (fun v => dependsOn v.2)).flatten := by
  induction l with
  | nil => simp [dependsOnFields]
  | cons v rest ih => simp [dependsOnFields, ih]

/-! ### Escaping: the ten replacement passes are one pass -/

theorem replaceAll_append (ch : Char) (new a b : List Char) :
    replaceAll ch new (a ++ b) = replaceAll ch new a ++ replaceAll ch new b := by
  induction a with
  | nil => simp [replaceAll]
  | cons c cs ih => by_cases h : c = ch <;> simp [replaceAll, h, ih]

theorem escapeLoop_append (set a b : List Char) :
    set.foldl (fun s ch => replaceAll ch ['\\', ch] s) (a ++ b)
      = set.foldl (fun s ch => replaceAll ch ['\\', ch] s) a
        ++ set.foldl (fun s ch => replaceAll ch ['\\', ch] s) b := by
  induction set generalizing a b with
  | nil => rfl
  | cons ch rest ih => simp only [List.foldl_cons, replaceAll_append, ih]

theorem escapeLoop_not_mem (set : List Char) (c : Char) (h : c ∉ set) :
    set.foldl (fun s ch => replaceAll ch ['\\', ch] s) [c] = [c] := by
  induction set with
  | nil => rfl
  | cons ch rest ih =>
    have hne : c ≠ ch := fun e => h (by simp [e])
    have hrest : c ∉ rest := fun e => h (by simp [e])
    simp only [List.foldl_cons, replaceAll, hne, if_false]
    exact ih hrest

theorem escapeChars_singleton (c : Char) : escapeChars [c] = escapeOne c := by
  by_cases h : c ∈ escapeSet
  · have h' := h
    simp only [escapeSet, List.mem_cons, List.mem_singleton, List.not_mem_nil, or_false] at h'
    rcases h' with h' | h' | h' | h' | h' | h' | h' | h' | h' | h' <;> subst h' <;> rfl
  · rw [escapeOne, if_neg h]
    exact escapeLoop_not_mem _ _ h

/-- The loop of `escape` is a single pass of `escapeOne`. -/
theorem escapeChars_eq (s : List Char) : escapeChars s = s.flatMap escapeOne := by
  induction s with
  | nil => rfl
  | cons c cs ih =>
    have : c :: cs = [c] ++ cs := rfl
    rw [this, escapeChars, escapeLoop_append]
    change escapeChars [c] ++ escapeChars cs = _
    rw [escapeChars_singleton, ih]
    simp

theorem backslash_not_mem : '\\' ∉ escapeSet := by decide

theorem escapeOne_length (c : Char) :
    (escapeOne c).length = 1 + (if c ∈ escapeSet then 1 else 0) := by
  by_cases h : c ∈ escapeSet <;> simp [escapeOne, h]

theorem flatMap_escapeOne_length (s : List Char) :
    (s.flatMap escapeOne).length = s.length + s.countP (fun c => decide (c ∈ escapeSet)) := by
  induction s with
  | nil => rfl
  | cons c cs ih =>
    by_cases h : c ∈ escapeSet <;>
      simp [List.flatMap_cons, escapeOne, h, ih, List.countP_cons] <;> omega

theorem flatMap_escapeOne_preceded (s : List Char) (i : Nat) (c : Char)
    (hi : (s.flatMap escapeOne)[i]? = some c) (hc : c ∈ escapeSet) :
    ∃ j, i = j + 1 ∧ (s.flatMap escapeOne)[j]? = some '\\' := by
  induction s generalizing i with
  | nil => simp at hi
  | cons d ds ih =>
    by_cases hd : d ∈ escapeSet
    · have e : (d :: ds).flatMap escapeOne = '\\' :: d :: ds.flatMap escapeOne := by
        simp [List.flatMap_cons, escapeOne, hd]
      rw [e] at hi ⊢
      match i, hi with
      | 0, hi =>
        simp at hi
        exact absurd (hi ▸ hc) backslash_not_mem
      | 1, _ => exact ⟨0, rfl, rfl⟩
      | k + 2, hi =>
        simp only [List.getElem?_cons_succ] at hi
        obtain ⟨j, hj, hb⟩ := ih k hi
        exact ⟨j + 2, by omega, by simpa using hb⟩
    · have e : (d :: ds).flatMap escapeOne = d :: ds.flatMap escapeOne := by
        simp [List.flatMap_cons, escapeOne, hd]
      rw [e] at hi ⊢
      match i, hi with
      | 0, hi =>
        simp at hi
        exact absurd (hi ▸ hc) hd
      | k + 1, hi =>
        simp only [List.getElem?_cons_succ] at hi
        obtain ⟨j, hj, hb⟩ := ih k hi
        exact ⟨j + 1, by omega, by simpa using hb⟩

/-! ### Escaping: the left inverse -/

theorem startsWithEscaped_flatMap_escapeOne (s : List Char) :
    startsWithEscaped (s.flatMap escapeOne) = false := by
  cases s with
  | nil => rfl
  | cons d ds =>
    by_cases hd : d ∈ escapeSet
    · have e : (d :: ds).flatMap escapeOne = '\\' :: d :: ds.flatMap escapeOne := by
        simp [List.flatMap_cons, escapeOne, hd]
      rw [e]
      exact decide_eq_false backslash_not_mem
    · have e : (d :: ds).flatMap escapeOne = d :: ds.flatMap escapeOne := by
        simp [List.flatMap_cons, escapeOne, hd]
      rw [e]
      exact decide_eq_false hd

theorem unescape_flatMap_escapeOne (s : List Char) : unescape (s.flatMap escapeOne) = s := by
  induction s with
  | nil => rfl
  | cons c cs ih =>
    have hs := startsWithEscaped_flatMap_escapeOne cs
    by_cases hc : c ∈ escapeSet
    · have e : (c :: cs).flatMap escapeOne = '\\' :: c :: cs.flatMap escapeOne := by
        simp [List.flatMap_cons, escapeOne, hc]
      have hne : c ≠ '\\' := fun h => backslash_not_mem (h ▸ hc)
      have h1 : startsWithEscaped (c :: cs.flatMap escapeOne) = true := decide_eq_true hc
      rw [e, unescape, if_pos ⟨rfl, h1⟩, unescape, if_neg (fun h => hne h.1), ih]
    · have e : (c :: cs).flatMap escapeOne = c :: cs.flatMap escapeOne := by
        simp [List.flatMap_cons, escapeOne, hc]
      rw [e, unescape, if_neg (fun h => by rw [hs] at h; exact Bool.false_ne_true h.2), ih]

/-! ### The node pass -/

theorem nodeIds_append (a b : List Stmt) : nodeIds (a ++ b) = nodeIds a ++ nodeIds b := by
  induction a with
  | nil => rfl
  | cons s rest ih => cases s <;> simp [nodeIds, ih]

theorem missedDecls_append (a b : List Stmt) :
    missedDecls (a ++ b) = missedDecls a ++ missedDecls b := by
  induction a with
  | nil => rfl
  | cons s rest ih => cases s <;> simp [missedDecls, ih]

theorem edgesOf_append (a b : List Stmt) : edgesOf (a ++ b) = edgesOf a ++ edgesOf b := by
  induction a with
  | nil => rfl
  | cons s rest ih => cases s <;> simp [edgesOf, ih]

theorem nodeStmt_nodeIds (pkg : String) (typ : namedType) (s : Stmt)
    (h : nodeStmt pkg typ = some s) :
    nodeIds [s] = if recognized typ.Typ then [nodeId pkg typ.Ident] else [] := by
  obtain ⟨ident, t⟩ := typ
  cases t with
  | InterfaceType methods =>
    cases methods <;> simp [nodeStmt] at h
    subst h; simp [nodeIds, recognized]
  | _ => simp [nodeStmt] at h; subst h; simp [nodeIds, recognized]

theorem nodeStmt_missedDecls (pkg : String) (typ : namedType) (s : Stmt)
    (h : nodeStmt pkg typ = some s) :
    missedDecls [s] = if recognized typ.Typ then [] else [typ] := by
  obtain ⟨ident, t⟩ := typ
  cases t with
  | InterfaceType methods =>
    cases methods <;> simp [nodeStmt] at h
    subst h; simp [missedDecls, recognized]
  | _ => simp [nodeStmt] at h; subst h; simp [missedDecls, recognized]

theorem nodeStmt_edgesOf (pkg : String) (typ : namedType) (s : Stmt)
    (h : nodeStmt pkg typ = some s) : edgesOf [s] = [] := by
  obtain ⟨ident, t⟩ := typ
  cases t with
  | InterfaceType methods =>
    cases methods <;> simp [nodeStmt] at h
    subst h; simp [edgesOf]
  | _ => simp [nodeStmt] at h; subst h; simp [edgesOf]

theorem nodeStmt_isSome (pkg : String) (typ : namedType)
    (h : typ.Typ ≠ .InterfaceType none) : ∃ s, nodeStmt pkg typ = some s := by
  obtain ⟨ident, t⟩ := typ
  cases t with
  | InterfaceType methods =>
    cases methods with
    | none => exact absurd rfl h
    | some ms => exact ⟨_, rfl⟩
  | _ => exact ⟨_, rfl⟩

theorem nodeStmts_cons_some (pkg : String) (entry : String × namedType)
    (rest : List (String × namedType)) (out : List Stmt)
    (h : nodeStmts pkg (entry :: rest) = some out) :
    ∃ s ss, nodeStmt pkg entry.2 = some s ∧ nodeStmts pkg rest = some ss ∧ out = s :: ss := by
  rw [nodeStmts] at h
  cases h1 : nodeStmt pkg entry.2 with
  | none => simp [h1] at h
  | some s =>
    cases h2 : nodeStmts pkg rest with
    | none => simp [h1, h2] at h
    | some ss => simp [h1, h2] at h; exact ⟨s, ss, rfl, rfl, h.symm⟩

theorem nodeStmts_spec (pkg : String) (l : List (String × namedType)) (out : List Stmt)
    (h : nodeStmts pkg l = some out) :
    nodeIds out = ((l.map (fun e => (pkg, e.2))).filter (fun d => recognized d.2.Typ)).map
        (fun d => nodeId d.1 d.2.Ident) ∧
      missedDecls out = ((l.map (fun e => (pkg, e.2))).filter
        (fun d => !recognized d.2.Typ)).map (fun d => d.2) ∧
      edgesOf out = [] := by
  induction l generalizing out with
  | nil => simp [nodeStmts] at h; subst h; simp [nodeIds, missedDecls, edgesOf]
  | cons entry rest ih =>
    obtain ⟨s, ss, h1, h2, rfl⟩ := nodeStmts_cons_some pkg entry rest out h
    obtain ⟨i1, i2, i3⟩ := ih ss h2
    have e : s :: ss = [s] ++ ss := rfl
    refine ⟨?_, ?_, ?_⟩
    · rw [e, nodeIds_append, nodeStmt_nodeIds pkg entry.2 s h1, i1]
      by_cases hr : recognized entry.2.Typ <;> simp [hr]
    · rw [e, missedDecls_append, nodeStmt_missedDecls pkg entry.2 s h1, i2]
      by_cases hr : recognized entry.2.Typ <;> simp [hr]
    · rw [e, edgesOf_append, nodeStmt_edgesOf pkg entry.2 s h1, i3]; rfl

theorem nodeStmts_isSome (pkg : String) (l : List (String × namedType))
    (h : ∀ e ∈ l, e.2.Typ ≠ .InterfaceType none) : ∃ out, nodeStmts pkg l = some out := by
  induction l with
  | nil => exact ⟨[], rfl⟩
  | cons entry rest ih =>
    obtain ⟨s, hs⟩ := nodeStmt_isSome pkg entry.2 (h entry (by simp))
    obtain ⟨ss, hss⟩ := ih (fun e he => h e (by simp [he]))
    rw [nodeStmts, hs, hss]
    exact ⟨_, rfl⟩

theorem declarations_cons (pkg : String × List (String × namedType)) (rest : Registry) :
    declarations (pkg :: rest) = pkg.2.map (fun e => (pkg.1, e.2)) ++ declarations rest := by
  simp [declarations]

theorem nodePass_cons_some (pkg : String × List (String × namedType)) (rest : Registry)
    (out : List Stmt) (h : nodePass (pkg :: rest) = some out) :
    ∃ ns more, nodeStmts pkg.1 pkg.2 = some ns ∧ nodePass rest = some more ∧
      out = .subgraphOpen ("cluster_" ++ pkg.1) :: .label pkg.1 :: ns
            ++ .subgraphClose :: more := by
  rw [nodePass] at h
  cases h1 : nodeStmts pkg.1 pkg.2 with
  | none => simp [h1] at h
  | some ns =>
    cases h2 : nodePass rest with
    | none => simp [h1, h2] at h
    | some more => simp [h1, h2] at h; exact ⟨ns, more, rfl, rfl, h.symm⟩

theorem nodePass_spec (reg : Registry) (out : List Stmt) (h : nodePass reg = some out) :
    nodeIds out = ((declarations reg).filter (fun d => recognized d.2.Typ)).map
        (fun d => nodeId d.1 d.2.Ident) ∧
      missedDecls out = ((declarations reg).filter
        (fun d => !recognized d.2.Typ)).map (fun d => d.2) ∧
      edgesOf out = [] := by
  induction reg generalizing out with
  | nil => simp [nodePass] at h; subst h; simp [nodeIds, missedDecls, edgesOf, declarations]
  | cons pkg rest ih =>
    obtain ⟨ns, more, h1, h2, rfl⟩ := nodePass_cons_some pkg rest out h
    obtain ⟨i1, i2, i3⟩ := ih more h2
    obtain ⟨j1, j2, j3⟩ := nodeStmts_spec pkg.1 pkg.2 ns h1
    have e : Stmt.subgraphOpen ("cluster_" ++ pkg.1) :: Stmt.label pkg.1 :: ns
          ++ Stmt.subgraphClose :: more
        = [Stmt.subgraphOpen ("cluster_" ++ pkg.1), Stmt.label pkg.1] ++ ns
          ++ [Stmt.subgraphClose] ++ more := by simp
    rw [e, declarations_cons]
    simp only [nodeIds_append, missedDecls_append, edgesOf_append, List.filter_append,
      List.map_append, i1, i2, i3, j1, j2, j3]
    simp [nodeIds, missedDecls, edgesOf]

theorem nodePass_isSome (reg : Registry) (h : MethodsAllocated reg) :
    ∃ out, nodePass reg = some out := by
  induction reg with
  | nil => exact ⟨[], rfl⟩
  | cons pkg rest ih =>
    have hp : ∀ e ∈ pkg.2, e.2.Typ ≠ .InterfaceType none := by
      intro e he
      apply h (pkg.1, e.2)
      rw [declarations_cons]
      exact List.mem_append_left _ (List.mem_map.2 ⟨e, he, rfl⟩)
    have hr : MethodsAllocated rest := by
      intro d hd
      apply h d
      rw [declarations_cons]
      exact List.mem_append_right _ hd
    obtain ⟨ns, hns⟩ := nodeStmts_isSome pkg.1 pkg.2 hp
    obtain ⟨more, hmore⟩ := ih hr
    rw [nodePass, hns, hmore]
    exact ⟨_, rfl⟩

/-! ### The edge loops -/

theorem mem_edgesOf (out : List Stmt) (p n : String) (i : Nat) (t : String) :
    (p, n, i, t) ∈ edgesOf out ↔ Stmt.edge p n i t ∈ out := by
  induction out with
  | nil => simp [edgesOf]
  | cons s rest ih => cases s <;> simp [edgesOf, ih]

theorem mem_dedup_loop (l acc : List String) (T : String) :
    T ∈ l.foldl (fun x s => if s ∈ x then x else x ++ [s]) acc ↔ T ∈ acc ∨ T ∈ l := by
  induction l generalizing acc with
  | nil => simp
  | cons s rest ih =>
    rw [List.foldl_cons, ih]
    by_cases h : s ∈ acc
    · simp only [h, if_true, List.mem_cons]
      constructor
      · rintro (h1 | h1)
        · exact Or.inl h1
        · exact Or.inr (Or.inr h1)
      · rintro (h1 | h1 | h1)
        · exact Or.inl h1
        · exact Or.inl (h1 ▸ h)
        · exact Or.inr h1
    · simp only [h, if_false, List.mem_append, List.mem_singleton, List.mem_cons]
      tauto

/-- The names kept by `dedup` are the names given. -/
theorem mem_dedup (l : List String) (T : String) : T ∈ dedup l ↔ T ∈ l := by
  simp [dedup, mem_dedup_loop]

theorem edgesOf_directEdges (flat : List (String × namedType)) (pkg name : String)
    (i : Nat) (names : List String) :
    nodeIds (directEdges flat pkg name i names) = [] ∧
      missedDecls (directEdges flat pkg name i names) = [] ∧
      ∀ x ∈ edgesOf (directEdges flat pkg name i names), x.1 = pkg ∧ x.2.1 = name := by
  induction names generalizing i with
  | nil => simp [directEdges, nodeIds, missedDecls, edgesOf]
  | cons T rest ih =>
    obtain ⟨h1, h2, h3⟩ := ih (i + 1)
    rw [directEdges, nodeIds_append, missedDecls_append, edgesOf_append, h1, h2]
    by_cases hT : mapHas flat T = true
    · simp only [hT, if_true, nodeIds, missedDecls, edgesOf, List.nil_append, true_and,
        List.mem_append, List.mem_singleton]
      rintro x (rfl | hx)
      · exact ⟨rfl, rfl⟩
      · exact h3 x hx
    · simp only [hT, nodeIds, missedDecls, edgesOf, List.nil_append, true_and]
      exact h3

theorem edgesOf_compartmentEdges (flat : List (String × namedType)) (pkg name : String)
    (i : Nat) (names : List String) :
    nodeIds (compartmentEdges flat pkg name i names) = [] ∧
      missedDecls (compartmentEdges flat pkg name i names) = [] ∧
      edgesOf (compartmentEdges flat pkg name i names)
        = (names.filter (fun T => mapHas flat T)).map
            (fun T => (pkg, name, i, "node-" ++ qualify pkg T)) := by
  induction names with
  | nil => simp [compartmentEdges, nodeIds, missedDecls, edgesOf]
  | cons T rest ih =>
    obtain ⟨h1, h2, h3⟩ := ih
    rw [compartmentEdges, nodeIds_append, missedDecls_append, edgesOf_append, h1, h2, h3]
    by_cases hT : mapHas flat T = true <;> simp [hT, nodeIds, missedDecls, edgesOf]

theorem edgesOf_fieldEdges (flat : List (String × namedType)) (pkg name : String)
    (i : Nat) (fields : List FieldEntry) :
    nodeIds (fieldEdges flat pkg name i fields) = [] ∧
      missedDecls (fieldEdges flat pkg name i fields) = [] ∧
      ∀ (p n : String) (c : Nat) (t : String),
        (p, n, c, t) ∈ edgesOf (fieldEdges flat pkg name i fields) ↔
          p = pkg ∧ n = name ∧ i ≤ c ∧ ∃ f, fields[c - i]? = some f ∧
            ∃ T ∈ dependsOn f.2, mapHas flat T = true ∧ t = "node-" ++ qualify pkg T := by
  induction fields generalizing i with
  | nil => simp [fieldEdges, nodeIds, missedDecls, edgesOf]
  | cons f rest ih =>
    obtain ⟨h1, h2, h3⟩ := ih (i + 1)
    obtain ⟨c1, c2, c3⟩ := edgesOf_compartmentEdges flat pkg name i (dedup (dependsOn f.2))
    rw [fieldEdges, nodeIds_append, missedDecls_append, edgesOf_append, h1, h2, c1, c2, c3]
    refine ⟨rfl, rfl, ?_⟩
    intro p n c t
    rw [List.mem_append, h3]
    simp only [List.mem_map, List.mem_filter, mem_dedup, Prod.mk.injEq]
    constructor
    · rintro (⟨T, ⟨hT, hm⟩, rfl, rfl, rfl, rfl⟩ | ⟨rfl, rfl, hle, g, hg, T, hT, hm, rfl⟩)
      · exact ⟨rfl, rfl, le_refl _, f, by simp, T, hT, hm, rfl⟩
      · refine ⟨rfl, rfl, by omega, g, ?_, T, hT, hm, rfl⟩
        have : c - i = (c - (i + 1)) + 1 := by omega
        rw [this, List.getElem?_cons_succ]; exact hg
    · rintro ⟨rfl, rfl, hle, g, hg, T, hT, hm, rfl⟩
      by_cases hc : c = i
      · subst hc
        simp at hg
        subst hg
        exact Or.inl ⟨T, ⟨hT, hm⟩, rfl, rfl, rfl, rfl⟩
      · have : c - i = (c - (i + 1)) + 1 := by omega
        rw [this, List.getElem?_cons_succ] at hg
        exact Or.inr ⟨rfl, rfl, by omega, g, hg, T, hT, hm, rfl⟩

/-! ### The edge pass and the whole of `dotRender` -/

theorem edgeStmts_spec (flat : List (String × namedType)) (pkg : String) (d : namedType)
    (l : List Stmt) (h : edgeStmts flat pkg d = some l) :
    nodeIds l = [] ∧ missedDecls l = [] ∧
      ∀ x ∈ edgesOf l, x.1 = pkg ∧ x.2.1 = d.Ident := by
  obtain ⟨ident, t⟩ := d
  cases t with
  | InterfaceType methods =>
    cases methods with
    | none => simp [edgeStmts] at h
    | some ms =>
      simp only [edgeStmts, Option.some.injEq] at h
      subst h
      obtain ⟨h1, h2, h3⟩ := edgesOf_fieldEdges flat pkg ident 0 ms
      refine ⟨h1, h2, ?_⟩
      rintro ⟨p, n, c, t⟩ hx
      have := (h3 p n c t).1 hx
      exact ⟨this.1, this.2.1⟩
  | StructType fields =>
    simp only [edgeStmts, Option.some.injEq] at h
    subst h
    obtain ⟨h1, h2, h3⟩ := edgesOf_fieldEdges flat pkg ident 0 fields
    refine ⟨h1, h2, ?_⟩
    rintro ⟨p, n, c, t⟩ hx
    have := (h3 p n c t).1 hx
    exact ⟨this.1, this.2.1⟩
  | FuncType ps rs =>
    simp only [edgeStmts, Option.some.injEq] at h
    subst h
    exact edgesOf_directEdges flat pkg ident 0 _
  | ChanType v =>
    simp only [edgeStmts, Option.some.injEq] at h
    subst h
    exact edgesOf_directEdges flat pkg ident 0 _
  | _ =>
    simp only [edgeStmts, Option.some.injEq] at h
    subst h
    simp [nodeIds, missedDecls, edgesOf]

theorem edgeStmts_isSome (flat : List (String × namedType)) (pkg : String) (d : namedType)
    (h : d.Typ ≠ .InterfaceType none) : ∃ l, edgeStmts flat pkg d = some l := by
  obtain ⟨ident, t⟩ := d
  cases t with
  | InterfaceType methods =>
    cases methods with
    | none => exact absurd rfl h
    | some ms => exact ⟨_, rfl⟩
  | _ => exact ⟨_, rfl⟩

theorem pkgEdges_cons_some (flat : List (String × namedType)) (pkg : String)
    (entry : String × namedType) (rest : List (String × namedType)) (out : List Stmt)
    (h : pkgEdges flat pkg (entry :: rest) = some out) :
    ∃ es more, edgeStmts flat pkg entry.2 = some es ∧ pkgEdges flat pkg rest = some more ∧
      out = es ++ more := by
  rw [pkgEdges] at h
  cases h1 : edgeStmts flat pkg entry.2 with
  | none => simp [h1] at h
  | some es =>
    cases h2 : pkgEdges flat pkg rest with
    | none => simp [h1, h2] at h
    | some more => simp [h1, h2] at h; exact ⟨es, more, rfl, rfl, h.symm⟩

theorem pkgEdges_spec (flat : List (String × namedType)) (pkg : String)
    (l : List (String × namedType)) (out : List Stmt) (h : pkgEdges flat pkg l = some out) :
    nodeIds out = [] ∧ missedDecls out = [] ∧
      ∀ x, x ∈ edgesOf out ↔
        ∃ e ∈ l, ∃ es, edgeStmts flat pkg e.2 = some es ∧ x ∈ edgesOf es := by
  induction l generalizing out with
  | nil => simp [pkgEdges] at h; subst h; simp [nodeIds, missedDecls, edgesOf]
  | cons entry rest ih =>
    obtain ⟨es, more, h1, h2, rfl⟩ := pkgEdges_cons_some flat pkg entry rest out h
    obtain ⟨i1, i2, i3⟩ := ih more h2
    obtain ⟨j1, j2, _⟩ := edgeStmts_spec flat pkg entry.2 es h1
    rw [nodeIds_append, missedDecls_append, edgesOf_append, i1, i2, j1, j2]
    refine ⟨rfl, rfl, ?_⟩
    intro x
    rw [List.mem_append, i3]
    constructor
    · rintro (hx | ⟨e, he, es', hes, hx⟩)
      · exact ⟨entry, by simp, es, h1, hx⟩
      · exact ⟨e, by simp [he], es', hes, hx⟩
    · rintro ⟨e, he, es', hes, hx⟩
      rcases List.mem_cons.1 he with rfl | he
      · rw [h1] at hes
        cases hes
        exact Or.inl hx
      · exact Or.inr ⟨e, he, es', hes, hx⟩

theorem pkgEdges_isSome (flat : List (String × namedType)) (pkg : String)
    (l : List (String × namedType)) (h : ∀ e ∈ l, e.2.Typ ≠ .InterfaceType none) :
    ∃ out, pkgEdges flat pkg l = some out := by
  induction l with
  | nil => exact ⟨[], rfl⟩
  | cons entry rest ih =>
    obtain ⟨s, hs⟩ := edgeStmts_isSome flat pkg entry.2 (h entry (by simp))
    obtain ⟨ss, hss⟩ := ih (fun e he => h e (by simp [he]))
    rw [pkgEdges, hs, hss]
    exact ⟨_, rfl⟩

theorem edgePass_cons_some (flat : List (String × namedType))
    (pkg : String × List (String × namedType)) (rest : Registry) (out : List Stmt)
    (h : edgePass flat (pkg :: rest) = some out) :
    ∃ es more, pkgEdges flat pkg.1 pkg.2 = some es ∧ edgePass flat rest = some more ∧
      out = es ++ more := by
  rw [edgePass] at h
  cases h1 : pkgEdges flat pkg.1 pkg.2 with
  | none => simp [h1] at h
  | some es =>
    cases h2 : edgePass flat rest with
    | none => simp [h1, h2] at h
    | some more => simp [h1, h2] at h; exact ⟨es, more, rfl, rfl, h.symm⟩

theorem edgePass_spec (flat : List (String × namedType)) (reg : Registry) (out : List Stmt)
    (h : edgePass flat reg = some out) :
    nodeIds out = [] ∧ missedDecls out = [] ∧
      ∀ x, x ∈ edgesOf out ↔
        ∃ pkg ∈ reg, ∃ e ∈ pkg.2, ∃ es,
          edgeStmts flat pkg.1 e.2 = some es ∧ x ∈ edgesOf es := by
  induction reg generalizing out with
  | nil => simp [edgePass] at h; subst h; simp [nodeIds, missedDecls, edgesOf]
  | cons pkg rest ih =>
    obtain ⟨es, more, h1, h2, rfl⟩ := edgePass_cons_some flat pkg rest out h
    obtain ⟨i1, i2, i3⟩ := ih more h2
    obtain ⟨j1, j2, j3⟩ := pkgEdges_spec flat pkg.1 pkg.2 es h1
    rw [nodeIds_append, missedDecls_append, edgesOf_append, i1, i2, j1, j2]
    refine ⟨rfl, rfl, ?_⟩
    intro x
    rw [List.mem_append, i3, j3]
    constructor
    · rintro (⟨e, he, es', hes, hx⟩ | ⟨p, hp, e, he, es', hes, hx⟩)
      · exact ⟨pkg, by simp, e, he, es', hes, hx⟩
      · exact ⟨p, by simp [hp], e, he, es', hes, hx⟩
    · rintro ⟨p, hp, e, he, es', hes, hx⟩
      rcases List.mem_cons.1 hp with rfl | hp
      · exact Or.inl ⟨e, he, es', hes, hx⟩
      · exact Or.inr ⟨p, hp, e, he, es', hes, hx⟩

theorem edgePass_isSome (flat : List (String × namedType)) (reg : Registry)
    (h : MethodsAllocated reg) : ∃ out, edgePass flat reg = some out := by
  induction reg with
  | nil => exact ⟨[], rfl⟩
  | cons pkg rest ih =>
    have hp : ∀ e ∈ pkg.2, e.2.Typ ≠ .InterfaceType none := by
      intro e he
      apply h (pkg.1, e.2)
      rw [declarations_cons]
      exact List.mem_append_left _ (List.mem_map.2 ⟨e, he, rfl⟩)
    have hr : MethodsAllocated rest := by
      intro d hd
      apply h d
      rw [declarations_cons]
      exact List.mem_append_right _ hd
    obtain ⟨ns, hns⟩ := pkgEdges_isSome flat pkg.1 pkg.2 hp
    obtain ⟨more, hmore⟩ := ih hr
    rw [edgePass, hns, hmore]
    exact ⟨_, rfl⟩

/-- The shape of a completed run. -/
theorem dotRender_some (reg : Registry) (out : List Stmt) (h : dotRender reg = some out) :
    ∃ ns es, nodePass reg = some ns ∧ edgePass (flatTypes reg) reg = some es ∧
      out = [Stmt.digraphOpen] ++ ns ++ es ++ [Stmt.digraphClose] := by
  rw [dotRender] at h
  cases h1 : nodePass reg with
  | none => simp [h1] at h
  | some ns =>
    cases h2 : edgePass (flatTypes reg) reg with
    | none => simp [h1, h2] at h
    | some es => simp [h1, h2] at h; exact ⟨ns, es, rfl, rfl, by simp [← h]⟩

/-- With every method list allocated, `dotRender` does not panic. -/
theorem dotRender_isSome (reg : Registry) (h : MethodsAllocated reg) :
    ∃ out, dotRender reg = some out := by
  obtain ⟨ns, hns⟩ := nodePass_isSome reg h
  obtain ⟨es, hes⟩ := edgePass_isSome (flatTypes reg) reg h
  rw [dotRender, hns, hes]
  exact ⟨_, rfl⟩

/-- In a map, a key has one value. -/
theorem lookup_unique {β : Type} (l : List (String × β)) (k : String) (v w : β)
    (hnd : (l.map Prod.fst).Nodup) (hv : (k, v) ∈ l) (hw : (k, w) ∈ l) : v = w := by
  induction l with
  | nil => simp at hv
  | cons e rest ih =>
    simp only [List.map_cons, List.nodup_cons, List.mem_map, not_exists, not_and] at hnd
    rcases List.mem_cons.1 hv with hv | hv <;> rcases List.mem_cons.1 hw with hw | hw
    · rw [← hv] at hw; exact (Prod.mk.inj hw).2.symm
    · exact absurd (by rw [← hv]) (hnd.1 (k, w) hw)
    · exact absurd (by rw [← hw]) (hnd.1 (k, v) hv)
    · exact ih hnd.2 hv hw

/-! ## The claims -/

/-- C1 (as amended): on a well-formed registry that `dotRender` renders, a Struct
or Interface declaration `D` of package `P` gets an edge from compartment `C`
to `target` exactly when `target` is `node-` followed by the qualified form of a
name `T` that `dependsOn` resolves for the compartment and `T`, looked up as it
is written, is a key of the flattened index. -/
theorem dotRender_edge_iff_lookup_as_written (reg : Registry) (out : List Stmt) (P : String)
    (types : List (String × namedType)) (key : String) (D : namedType)
    (fields : List FieldEntry) (C : Nat) (f : FieldEntry) (target : String)
    (hwf : WellFormed reg) (hout : dotRender reg = some out)
    (hP : (P, types) ∈ reg) (hD : (key, D) ∈ types)
    (hshape : D.Typ = .StructType fields ∨ D.Typ = .InterfaceType (some fields))
    (hC : fields[C]? = some f) :
    Stmt.edge P D.Ident C target ∈ out ↔
      ∃ T ∈ dependsOn f.2, mapHas (flatTypes reg) T = true ∧
        target = "node-" ++ qualify P T := by
  obtain ⟨ns, es, hns, hes, rfl⟩ := dotRender_some reg out hout
  obtain ⟨_, _, n3⟩ := nodePass_spec reg ns hns
  obtain ⟨_, _, e3⟩ := edgePass_spec (flatTypes reg) reg es hes
  have hDe : edgeStmts (flatTypes reg) P D
      = some (fieldEdges (flatTypes reg) P D.Ident 0 fields) := by
    obtain ⟨ident, t⟩ := D
    rcases hshape with hs | hs <;> simp only at hs <;> subst hs <;> rfl
  obtain ⟨_, _, f3⟩ := edgesOf_fieldEdges (flatTypes reg) P D.Ident 0 fields
  have hE : edgesOf ([Stmt.digraphOpen] ++ ns ++ es ++ [Stmt.digraphClose]) = edgesOf es := by
    rw [edgesOf_append, edgesOf_append, edgesOf_append, n3]
    simp [edgesOf]
  rw [← mem_edgesOf, hE, e3]
  constructor
  · rintro ⟨pkg, hpkg, e, he, es', hes', hx⟩
    obtain ⟨_, _, s3⟩ := edgeStmts_spec (flatTypes reg) pkg.1 e.2 es' hes'
    obtain ⟨hp1, hn1⟩ := s3 _ hx
    simp only at hp1 hn1
    obtain ⟨p1, ts1⟩ := pkg
    simp only at hp1
    subst hp1
    have hts : ts1 = types := lookup_unique reg P ts1 types hwf.1 hpkg hP
    subst hts
    obtain ⟨k1, d1⟩ := e
    simp only at hn1 hes' hx
    obtain ⟨hnd, hid⟩ := hwf.2 _ hP
    have hk1 : k1 = d1.Ident := (hid _ he).symm
    have hk : key = D.Ident := (hid _ hD).symm
    have hkk : k1 = key := by rw [hk1, hk, hn1]
    subst hkk
    have hd : d1 = D := lookup_unique ts1 k1 d1 D hnd he hD
    subst hd
    rw [hDe] at hes'
    cases hes'
    obtain ⟨_, _, _, g, hg, T, hT, hm, ht⟩ := (f3 _ _ _ _).1 hx
    simp only [Nat.sub_zero] at hg
    rw [hC] at hg
    cases hg
    exact ⟨T, hT, hm, ht⟩
  · rintro ⟨T, hT, hm, ht⟩
    refine ⟨(P, types), hP, (key, D), hD, _, hDe, ?_⟩
    exact (f3 _ _ _ _).2 ⟨rfl, rfl, Nat.zero_le _, f, by simpa using hC, T, hT, hm, ht⟩

/-- C1, witness: the struct `S` of package `a`, whose field has the type `B`. -/
theorem dotRender_edge_iff_lookup_as_written_witness :
    WellFormed regCrossPackage ∧
      (Stmt.edge "a" "S" 0 "node-a.B" ∈
          [Stmt.digraphOpen, .subgraphOpen "cluster_a", .label "a",
            .node "a" "S" "record" "\x7bS|<f0>f\\ B\x7d", .subgraphClose,
            .subgraphOpen "cluster_b", .label "b",
            .node "b" "B" "ellipse" "B\\ int", .subgraphClose,
            .edge "a" "S" 0 "node-a.B", .digraphClose] ↔
        ∃ T ∈ dependsOn (.Ident "B"), mapHas (flatTypes regCrossPackage) T = true ∧
          "node-a.B" = "node-" ++ qualify "a" T) :=
  have hwf : WellFormed regCrossPackage := by
    unfold WellFormed regCrossPackage
    decide
  ⟨hwf,
    dotRender_edge_iff_lookup_as_written regCrossPackage _ "a"
      [("S", ⟨"S", .StructType [(["f"], .Ident "B")]⟩)] "S"
      ⟨"S", .StructType [(["f"], .Ident "B")]⟩ [(["f"], .Ident "B")] 0 (["f"], .Ident "B")
      "node-a.B" hwf rfl (List.Mem.head _) (List.Mem.head _) (Or.inl rfl) rfl⟩

/-- C1, counterexample: package `a` declares `type S struct { f B }` and `B` is
declared in package `b` only. The edge from compartment 0 of `S` to `node-a.B`
is emitted, although `a.B`, the name qualified with the package of `S`, is not
a key of the flattened index. -/
theorem dotRender_edge_without_qualified_entry :
    ∃ out, dotRender regCrossPackage = some out ∧
      dependsOn (.Ident "B") = ["B"] ∧
      containsDot "B" = false ∧
      mapHas (flatTypes regCrossPackage) (qualify "a" "B") = false ∧
      Stmt.edge "a" "S" 0 "node-a.B" ∈ out ∧
      ¬ (Stmt.edge "a" "S" 0 "node-a.B" ∈ out ↔
          ∃ T ∈ dependsOn (.Ident "B"),
            mapHas (flatTypes regCrossPackage) (qualify "a" T) = true ∧
              "node-a.B" = "node-" ++ qualify "a" T) := by
  have hmem : Stmt.edge "a" "S" 0 "node-a.B" ∈
      [Stmt.digraphOpen, .subgraphOpen "cluster_a", .label "a",
        .node "a" "S" "record" "\x7bS|<f0>f\\ B\x7d", .subgraphClose,
        .subgraphOpen "cluster_b", .label "b",
        .node "b" "B" "ellipse" "B\\ int", .subgraphClose,
        .edge "a" "S" 0 "node-a.B", .digraphClose] := by simp
  refine ⟨_, rfl, rfl, by decide, by decide, hmem, ?_⟩
  intro h
  obtain ⟨T, hT, hm, _⟩ := h.1 hmem
  have hTB : T = "B" := by simpa [dependsOn] using hT
  subst hTB
  revert hm
  decide

/-- C2 (the code at the failing input): for `type Handler func(Point) error`
next to `type Point struct { X, Y int }` in package `p`, the only edge goes from
compartment 0 of `Handler` to `node-Point`, while the node of `Point` was
emitted under the id `node-p.Point`; no statement has the id `node-Point`. -/
theorem dotRender_function_edge_target_unqualified :
    dotRender regHandler =
        some [.digraphOpen, .subgraphOpen "cluster_p", .label "p",
          .node "p" "Handler" "rectangle" "Handler\\ func\\(Point\\)\\ \\(error\\)",
          .node "p" "Point" "record" "\x7bPoint|<f0>X,\\ Y\\ int\x7d", .subgraphClose,
          .edge "p" "Handler" 0 "node-Point", .digraphClose] ∧
      (dotRender regHandler).map edgesOf = some [("p", "Handler", 0, "node-Point")] ∧
      (dotRender regHandler).map nodeIds = some ["node-p.Handler", "node-p.Point"] ∧
      nodeId "p" "Point" = "node-p.Point" ∧
      "node-Point" ∉ ["node-p.Handler", "node-p.Point"] :=
  ⟨rfl, by decide, by decide, by decide, by decide⟩

/-- C3: when every interface declaration has its method list allocated,
`dotRender` returns, the ids of its node statements are, in order, the ids
`node-<package>.<name>` of the declarations of a recognized shape (one statement
each, so the two counts agree), and the declarations reported on the error
stream are exactly those of an unrecognized shape. -/
theorem dotRender_one_node_per_recognized (reg : Registry) (h : MethodsAllocated reg) :
    ∃ out, dotRender reg = some out ∧
      nodeIds out = ((declarations reg).filter (fun d => recognized d.2.Typ)).map
        (fun d => nodeId d.1 d.2.Ident) ∧
      (nodeIds out).length = ((declarations reg).filter (fun d => recognized d.2.Typ)).length ∧
      missedDecls out = ((declarations reg).filter (fun d => !recognized d.2.Typ)).map
        (fun d => d.2) := by
  obtain ⟨out, hout⟩ := dotRender_isSome reg h
  obtain ⟨ns, es, hns, hes, rfl⟩ := dotRender_some reg out hout
  obtain ⟨n1, n2, _⟩ := nodePass_spec reg ns hns
  obtain ⟨e1, e2, _⟩ := edgePass_spec (flatTypes reg) reg es hes
  have hid : nodeIds ([Stmt.digraphOpen] ++ ns ++ es ++ [Stmt.digraphClose])
      = ((declarations reg).filter (fun d => recognized d.2.Typ)).map
        (fun d => nodeId d.1 d.2.Ident) := by
    simp only [nodeIds_append, n1, e1]
    simp [nodeIds]
  refine ⟨_, hout, hid, ?_, ?_⟩
  · rw [hid, List.length_map]
  · simp only [missedDecls_append, n2, e2]
    simp [missedDecls]

/-- C3, witness: the registry with `Handler` and `Point`. -/
theorem dotRender_one_node_per_recognized_witness :
    MethodsAllocated regHandler ∧
      ∃ out, dotRender regHandler = some out ∧
        nodeIds out = ((declarations regHandler).filter (fun d => recognized d.2.Typ)).map
          (fun d => nodeId d.1 d.2.Ident) ∧
        (nodeIds out).length
          = ((declarations regHandler).filter (fun d => recognized d.2.Typ)).length ∧
        missedDecls out = ((declarations regHandler).filter
          (fun d => !recognized d.2.Typ)).map (fun d => d.2) :=
  have hma : MethodsAllocated regHandler := by
    intro d hd
    simp only [declarations, regHandler, List.flatMap_cons, List.flatMap_nil, List.map_cons,
      List.map_nil, List.append_nil, List.mem_cons, List.mem_singleton, List.not_mem_nil,
      or_false] at hd
    rcases hd with rfl | rfl <;> simp
  ⟨hma, dotRender_one_node_per_recognized regHandler hma⟩

/-- C4: around any nesting of pointer, array or slice, channel and field
wrappers, `dependsOn` returns the one-element list with the name of the base:
`[x]` for the identifier `x`, and `[Pkg.Type]` for the selector `Pkg.Type`. -/
theorem dependsOn_wrapped_base (ws : List Wrapper) :
    (∀ x : String, dependsOn (wrap ws (.Ident x)) = [x]) ∧
    (∀ pkg typ : String,
      dependsOn (wrap ws (.SelectorExpr (.Ident pkg) typ)) = [pkg ++ "." ++ typ]) := by
  constructor
  · intro x; rw [dependsOn_wrap]; simp [dependsOn]
  · intro p t; rw [dependsOn_wrap]; simp [dependsOn, toString]

/-- C5 (the code at the failing input): `dependsOn` has no arm for the ellipsis.
Whatever the inner expression, it returns the one `%#v` text of the ellipsis
node, whereas the pointer wrapper is resolved through and `toString` does print
the inner expression; for `func(...Point)` the list does not contain `Point`. -/
theorem dependsOn_ellipsis_default_arm (dump : String) (e : Node) :
    dependsOn (.Ellipsis dump e) = [goSyntax "Ellipsis" dump] ∧
      dependsOn (.StarExpr e) = dependsOn e ∧
      toString (.Ellipsis dump e) = "..." ++ toString e ∧
      dependsOn (.Ellipsis dump (.Ident "Point")) ≠ dependsOn (.Ident "Point") ∧
      dependsOn variadicPoint
        = ["&ast.Ellipsis\x7bEllipsis:17, Elt:(*ast.Ident)(0xc000010020)\x7d"] ∧
      "Point" ∉ dependsOn variadicPoint := by
  refine ⟨rfl, rfl, rfl, ?_, by decide, by decide⟩
  intro h
  have h1 : goSyntax "Ellipsis" dump = "Point" := by simpa [dependsOn] using h
  have h2 := congrArg String.data h1
  simp [goSyntax, String.data_append] at h2

/-- C6: for a function signature, `dependsOn` returns what it returns for the
type of each parameter entry, in order, followed by what it returns for the type
of each result entry, in order; an absent list contributes nothing. -/
theorem dependsOn_funcType_params_then_results (params results : Option (List FieldEntry)) :
    dependsOn (.FuncType params results)
      = ((params.getD []).map (fun p => dependsOn p.2)).flatten
        ++ ((results.getD []).map (fun r => dependsOn r.2)).flatten := by
  cases params <;> cases results <;>
    simp [dependsOn, dependsOnFieldList, dependsOnFields_eq, dependsOnFields]

/-- C7: for a map type, `dependsOn` returns the names of the key followed by the
names of the value: both are kept, the length is the sum of the two lengths and
the names of the key come first. -/
theorem dependsOn_mapType_key_then_value (k v : Node) :
    dependsOn (.MapType k v) = dependsOn k ++ dependsOn v ∧
      (dependsOn (.MapType k v)).length = (dependsOn k).length + (dependsOn v).length ∧
      (dependsOn (.MapType k v)).take (dependsOn k).length = dependsOn k ∧
      (dependsOn (.MapType k v)).drop (dependsOn k).length = dependsOn v := by
  have h : dependsOn (.MapType k v) = dependsOn k ++ dependsOn v := by simp [dependsOn]
  refine ⟨h, ?_, ?_, ?_⟩
  · rw [h, List.length_append]
  · rw [h, List.take_left]
  · rw [h, List.drop_left]

/-- C8: `dependsOn` returns a list for every node, and for a node that reaches
its `default` arm the list is one string, which is not empty. -/
theorem dependsOn_total_default_nonempty (n : Node) :
    (∃ l : List String, dependsOn n = l) ∧
    (inDefaultArm n = true → ∃ s : String, dependsOn n = [s] ∧ s ≠ "" ∧ 0 < s.length) := by
  refine ⟨⟨_, rfl⟩, ?_⟩
  intro h
  cases n <;> simp [inDefaultArm] at h
  · exact ⟨_, rfl, goSyntax_ne_empty _ _, goSyntax_length_pos _ _⟩
  · exact ⟨_, rfl, goSyntax_ne_empty _ _, goSyntax_length_pos _ _⟩

/-- C8, witness: a parenthesised expression. -/
theorem dependsOn_total_default_nonempty_witness :
    inDefaultArm (.Other .ParenExpr "Lparen:9, X:(*ast.Ident)(0xc000010040), Rparen:13") = true ∧
      ∃ s : String,
        dependsOn (.Other .ParenExpr "Lparen:9, X:(*ast.Ident)(0xc000010040), Rparen:13") = [s] ∧
          s ≠ "" ∧ 0 < s.length :=
  ⟨rfl, (dependsOn_total_default_nonempty
    (.Other .ParenExpr "Lparen:9, X:(*ast.Ident)(0xc000010040), Rparen:13")).2 rfl⟩

/-- C9: `escape s` is `s` with one backslash put in front of every character of
the escape set and every other character copied in order; its length is the
length of `s` plus the number of escape-set characters of `s`; and every
escape-set character of `escape s` stands right after a backslash. -/
theorem escape_backslash_exactly_before_escape_set (s : String) :
    (escape s).data = s.data.flatMap (fun c => if c ∈ escapeSet then ['\\', c] else [c]) ∧
    (escape s).length = s.length + s.data.countP (fun c => decide (c ∈ escapeSet)) ∧
    (∀ (i : Nat) (c : Char), (escape s).data[i]? = some c → c ∈ escapeSet →
      ∃ j, i = j + 1 ∧ (escape s).data[j]? = some '\\') := by
  have h : (escape s).data = s.data.flatMap escapeOne := escapeChars_eq s.data
  refine ⟨h, ?_, ?_⟩
  · rw [String.length, h, flatMap_escapeOne_length]; rfl
  · intro i c hi hc
    rw [h] at hi ⊢
    exact flatMap_escapeOne_preceded s.data i c hi hc

/-- C9, witness: the parenthesis at index 2 of `escape "f(x)"`. -/
theorem escape_backslash_exactly_before_escape_set_witness :
    (escape "f(x)").data[2]? = some '(' ∧
      ∃ j, 2 = j + 1 ∧ (escape "f(x)").data[j]? = some '\\' :=
  ⟨by decide,
    (escape_backslash_exactly_before_escape_set "f(x)").2.2 2 '(' (by decide) (by decide)⟩

/-- C10: deleting from `escape s` every backslash that immediately precedes an
escape-set character gives `s` back, for every `s`; hence `escape` is
injective. -/
theorem unescape_escape_roundtrip :
    (∀ s : String, String.mk (unescape (escape s).data) = s) ∧ Function.Injective escape := by
  have h : ∀ s : String, String.mk (unescape (escape s).data) = s := by
    intro s
    have e : (escape s).data = s.data.flatMap escapeOne := escapeChars_eq s.data
    rw [e, unescape_flatMap_escapeOne]
  refine ⟨h, ?_⟩
  intro a b hab
  rw [← h a, ← h b, hab]

/-! ### Deduplication -/

theorem dedup_loop_nodup (l acc : List String) (h : acc.Nodup) :
    (l.foldl (fun x s => if s ∈ x then x else x ++ [s]) acc).Nodup := by
  induction l generalizing acc with
  | nil => exact h
  | cons s rest ih =>
    rw [List.foldl_cons]
    apply ih
    by_cases hs : s ∈ acc
    · simpa [hs] using h
    · simp only [hs, if_false]
      rw [List.nodup_append]
      refine ⟨h, List.nodup_singleton s, ?_⟩
      intro a ha hb
      rw [List.mem_singleton] at hb
      exact hs (hb ▸ ha)

/-- C11: `dedup l` has set semantics: it holds no string twice, every string of
it occurs in `l`, and every string of `l` occurs in it (exactly once). -/
theorem dedup_set_semantics (l : List String) :
    (dedup l).Nodup ∧ (∀ s, s ∈ dedup l → s ∈ l) ∧ (∀ s, s ∈ l → s ∈ dedup l) ∧
      ∀ s, (dedup l).count s = if s ∈ l then 1 else 0 := by
  have hnd : (dedup l).Nodup := dedup_loop_nodup l [] List.nodup_nil
  refine ⟨hnd, fun s => (mem_dedup l s).1, fun s => (mem_dedup l s).2, ?_⟩
  intro s
  by_cases hs : s ∈ l
  · rw [if_pos hs]
    exact List.count_eq_one_of_mem hnd ((mem_dedup l s).2 hs)
  · rw [if_neg hs]
    exact List.count_eq_zero_of_not_mem (fun h => hs ((mem_dedup l s).1 h))

/-- C11, witness: a list with two repeated strings. -/
theorem dedup_set_semantics_witness :
    "a" ∈ dedup ["a", "b", "a", "c", "b"] ∧ "a" ∈ ["a", "b", "a", "c", "b"] :=
  ⟨by decide, (dedup_set_semantics ["a", "b", "a", "c", "b"]).2.1 "a" (by decide)⟩

/-! ### Nodes and edges, declaration by declaration -/

theorem structNames_go (acc : String) (ns : List String) (ii : Nat) :
    String.intercalate.go acc ", " ns = acc ++ structNames (ii + 1) ns := by
  induction ns generalizing acc ii with
  | nil => simp [String.intercalate.go, structNames]
  | cons n rest ih =>
    rw [String.intercalate.go, ih _ (ii + 1), structNames]
    simp [String.append_assoc]

theorem structNames_eq_intercalate (ns : List String) :
    structNames 0 ns = ", ".intercalate ns := by
  cases ns with
  | nil => rfl
  | cons n rest =>
    rw [String.intercalate, structNames_go n rest 0, structNames]
    simp

theorem structCompartments_cons (i : Nat) (f : FieldEntry) (fs : List FieldEntry) :
    structCompartments i (f :: fs)
      = (if i > 0 then "|" else "") ++ structCompartment i f ++ structCompartments (i + 1) fs := by
  rw [structCompartments, structCompartment, structNames_eq_intercalate]
  simp only [String.append_assoc]

theorem structCompartments_go (acc : String) (fs : List FieldEntry) (i : Nat) :
    String.intercalate.go acc "|" ((fs.enumFrom (i + 1)).map (fun p => structCompartment p.1 p.2))
      = acc ++ structCompartments (i + 1) fs := by
  induction fs generalizing acc i with
  | nil => simp [String.intercalate.go, structCompartments]
  | cons f rest ih =>
    rw [List.enumFrom_cons, List.map_cons, String.intercalate.go, ih _ (i + 1),
      structCompartments_cons]
    simp [String.append_assoc]

theorem structCompartments_eq_intercalate (fields : List FieldEntry) :
    structCompartments 0 fields
      = "|".intercalate (fields.enum.map (fun p => structCompartment p.1 p.2)) := by
  cases fields with
  | nil => rfl
  | cons f rest =>
    rw [List.enum, List.enumFrom_cons, List.map_cons, String.intercalate,
      structCompartments_go _ rest 0, structCompartments_cons]
    simp

theorem nodeStmt_struct (pkg name : String) (fields : List FieldEntry) :
    nodeStmt pkg ⟨name, .StructType fields⟩
      = some (.node pkg name "record" (structLabel name fields)) := by
  simp only [nodeStmt, structLabel, structCompartments_eq_intercalate]

theorem nodesOf_append (a b : List Stmt) : nodesOf (a ++ b) = nodesOf a ++ nodesOf b := by
  induction a with
  | nil => rfl
  | cons s rest ih => cases s <;> simp [nodesOf, ih]

theorem mem_nodesOf (out : List Stmt) (p n sh lb : String) :
    (p, n, sh, lb) ∈ nodesOf out ↔ Stmt.node p n sh lb ∈ out := by
  induction out with
  | nil => simp [nodesOf]
  | cons s rest ih => cases s <;> simp [nodesOf, ih]

theorem nodeIds_eq_map_nodesOf (out : List Stmt) :
    nodeIds out = (nodesOf out).map (fun x => nodeId x.1 x.2.1) := by
  induction out with
  | nil => rfl
  | cons s rest ih => cases s <;> simp [nodesOf, nodeIds, ih]

theorem nodesOf_eq_nil_of_nodeIds (out : List Stmt) (h : nodeIds out = []) : nodesOf out = [] := by
  rw [nodeIds_eq_map_nodesOf] at h
  exact List.map_eq_nil_iff.1 h

theorem nodeStmts_nodesOf (pkg : String) (l : List (String × namedType)) (out : List Stmt)
    (h : nodeStmts pkg l = some out) :
    nodesOf out = l.flatMap (fun e => nodesOf (nodeStmt pkg e.2).toList) := by
  induction l generalizing out with
  | nil => simp [nodeStmts] at h; subst h; rfl
  | cons entry rest ih =>
    obtain ⟨s, ss, h1, h2, rfl⟩ := nodeStmts_cons_some pkg entry rest out h
    have e : s :: ss = [s] ++ ss := rfl
    rw [e, nodesOf_append, ih ss h2, List.flatMap_cons, h1]
    rfl

theorem nodePass_nodesOf (reg : Registry) (out : List Stmt) (h : nodePass reg = some out) :
    nodesOf out
      = reg.flatMap (fun pkg => pkg.2.flatMap (fun e => nodesOf (nodeStmt pkg.1 e.2).toList)) := by
  induction reg generalizing out with
  | nil => simp [nodePass] at h; subst h; rfl
  | cons pkg rest ih =>
    obtain ⟨ns, more, h1, h2, rfl⟩ := nodePass_cons_some pkg rest out h
    have e : Stmt.subgraphOpen ("cluster_" ++ pkg.1) :: Stmt.label pkg.1 :: ns
          ++ Stmt.subgraphClose :: more
        = [Stmt.subgraphOpen ("cluster_" ++ pkg.1), Stmt.label pkg.1] ++ ns
          ++ [Stmt.subgraphClose] ++ more := by simp
    rw [e]
    simp only [nodesOf_append, ih more h2, nodeStmts_nodesOf pkg.1 pkg.2 ns h1,
      List.flatMap_cons]
    simp [nodesOf]

theorem pkgEdges_edgesOf (flat : List (String × namedType)) (pkg : String)
    (l : List (String × namedType)) (out : List Stmt) (h : pkgEdges flat pkg l = some out) :
    edgesOf out = l.flatMap (fun e => edgesOf ((edgeStmts flat pkg e.2).getD [])) := by
  induction l generalizing out with
  | nil => simp [pkgEdges] at h; subst h; rfl
  | cons entry rest ih =>
    obtain ⟨es, more, h1, h2, rfl⟩ := pkgEdges_cons_some flat pkg entry rest out h
    rw [edgesOf_append, ih more h2, List.flatMap_cons, h1]
    rfl

theorem edgePass_edgesOf (flat : List (String × namedType)) (reg : Registry)
    (out : List Stmt) (h : edgePass flat reg = some out) :
    edgesOf out
      = reg.flatMap (fun pkg =>
          pkg.2.flatMap (fun e => edgesOf ((edgeStmts flat pkg.1 e.2).getD []))) := by
  induction reg generalizing out with
  | nil => simp [edgePass] at h; subst h; rfl
  | cons pkg rest ih =>
    obtain ⟨es, more, h1, h2, rfl⟩ := edgePass_cons_some flat pkg rest out h
    rw [edgesOf_append, ih more h2, pkgEdges_edgesOf flat pkg.1 pkg.2 es h1, List.flatMap_cons]

theorem dotRender_parts (reg : Registry) (out : List Stmt) (h : dotRender reg = some out) :
    nodesOf out
        = reg.flatMap (fun pkg =>
            pkg.2.flatMap (fun e => nodesOf (nodeStmt pkg.1 e.2).toList)) ∧
      edgesOf out
        = reg.flatMap (fun pkg =>
            pkg.2.flatMap (fun e => edgesOf ((edgeStmts (flatTypes reg) pkg.1 e.2).getD []))) := by
  obtain ⟨ns, es, hns, hes, rfl⟩ := dotRender_some reg out h
  obtain ⟨_, _, n3⟩ := nodePass_spec reg ns hns
  obtain ⟨e1, _, _⟩ := edgePass_spec (flatTypes reg) reg es hes
  simp only [nodesOf_append, edgesOf_append, n3, nodesOf_eq_nil_of_nodeIds es e1,
    nodePass_nodesOf reg ns hns, edgePass_edgesOf (flatTypes reg) reg es hes]
  simp [nodesOf, edgesOf]

theorem count_flatMap_of_unique {α β κ : Type} [BEq β] [LawfulBEq β] (l : List α) (key : α → κ)
    (g : α → List β) (x : β) (a : α) (hnd : (l.map key).Nodup) (ha : a ∈ l)
    (ho : ∀ b ∈ l, x ∈ g b → key b = key a) :
    (l.flatMap g).count x = (g a).count x := by
  induction l with
  | nil => simp at ha
  | cons b rest ih =>
    rw [List.map_cons, List.nodup_cons] at hnd
    rw [List.flatMap_cons, List.count_append]
    by_cases hk : key b = key a
    · have hab : a = b := by
        rcases List.mem_cons.1 ha with h | h
        · exact h
        · exact absurd (List.mem_map.2 ⟨a, h, hk.symm⟩) hnd.1
      have hz : (rest.flatMap g).count x = 0 := by
        apply List.count_eq_zero_of_not_mem
        intro hx
        obtain ⟨c, hc, hxc⟩ := List.mem_flatMap.1 hx
        have hkc : key c = key b := (ho c (List.mem_cons_of_mem _ hc) hxc).trans hk.symm
        exact hnd.1 (List.mem_map.2 ⟨c, hc, hkc⟩)
      rw [hz, hab, Nat.add_zero]
    · have har : a ∈ rest := by
        rcases List.mem_cons.1 ha with h | h
        · exact absurd (by rw [h]) hk
        · exact h
      have hz : (g b).count x = 0 :=
        List.count_eq_zero_of_not_mem (fun hx => hk (ho b (List.mem_cons_self _ _) hx))
      rw [hz, Nat.zero_add]
      exact ih hnd.2 har (fun c hc => ho c (List.mem_cons_of_mem _ hc))

theorem nodeStmt_source (pkg : String) (d : namedType) (x : String × String × String × String)
    (hx : x ∈ nodesOf (nodeStmt pkg d).toList) : (x.1, x.2.1) = (pkg, d.Ident) := by
  obtain ⟨ident, t⟩ := d
  cases t with
  | InterfaceType methods =>
    cases methods <;> simp [nodeStmt, nodesOf] at hx
    subst hx; rfl
  | _ => simp [nodeStmt, nodesOf] at hx <;> (try subst hx) <;> rfl

theorem edgeStmts_source (flat : List (String × namedType)) (pkg : String) (d : namedType)
    (x : String × String × Nat × String)
    (hx : x ∈ edgesOf ((edgeStmts flat pkg d).getD [])) : (x.1, x.2.1) = (pkg, d.Ident) := by
  cases h : edgeStmts flat pkg d with
  | none => simp [h, edgesOf] at hx
  | some l =>
    rw [h] at hx
    obtain ⟨_, _, h3⟩ := edgeStmts_spec flat pkg d l h
    obtain ⟨h1, h2⟩ := h3 x hx
    rw [h1, h2]

theorem count_of_declaration {β : Type} [BEq β] [LawfulBEq β] (G : String → namedType → List β)
    (src : β → String × String)
    (hsrc : ∀ pkg d x, x ∈ G pkg d → src x = (pkg, d.Ident))
    (reg : Registry) (hwf : WellFormed reg) (P : String) (types : List (String × namedType))
    (key : String) (D : namedType) (hP : (P, types) ∈ reg) (hD : (key, D) ∈ types)
    (x : β) (hx : src x = (P, D.Ident)) :
    (reg.flatMap (fun pkg => pkg.2.flatMap (fun e => G pkg.1 e.2))).count x
      = (G P D).count x := by
  obtain ⟨hnd, hid⟩ := hwf.2 _ hP
  rw [count_flatMap_of_unique reg Prod.fst _ x (P, types) hwf.1 hP]
  · exact count_flatMap_of_unique types Prod.fst (fun e => G P e.2) x (key, D) hnd hD
      (by
        intro e he hxe
        have h1 := hsrc P e.2 x hxe
        rw [hx] at h1
        have h2 : D.Ident = e.2.Ident := (Prod.mk.inj h1).2
        have h3 : D.Ident = key := hid (key, D) hD
        show e.1 = key
        rw [← hid e he, ← h2, h3])
  · intro pkg _ hxp
    obtain ⟨e, _, hxe⟩ := List.mem_flatMap.1 hxp
    have h1 := hsrc pkg.1 e.2 x hxe
    rw [hx] at h1
    exact (Prod.mk.inj h1).1.symm

/-- C12: a Struct declaration `D` of package `P` with the given field groups gets
one node statement: its shape is `record` and its label is the escaped text of
the name and of the compartments, between braces; compartment `i` is the tag
`<f i>`, the names joined by a comma and a space, a space when there is a name,
and the text of the type. For `type Point struct { X, Y int }` the output is
one record node with the compartment `<f0>X, Y int`, and no edge. -/
theorem struct_node_label (reg : Registry) (out : List Stmt) (P : String)
    (types : List (String × namedType)) (key : String) (D : namedType)
    (fields : List FieldEntry)
    (hwf : WellFormed reg) (hout : dotRender reg = some out)
    (hP : (P, types) ∈ reg) (hD : (key, D) ∈ types) (hshape : D.Typ = .StructType fields) :
    (∀ shape label, Stmt.node P D.Ident shape label ∈ out ↔
        shape = "record" ∧ label = structLabel D.Ident fields) ∧
      (nodesOf out).count (P, D.Ident, "record", structLabel D.Ident fields) = 1 ∧
      (∀ i f, fields[i]? = some f → (fields.enum.map (fun p => structCompartment p.1 p.2))[i]?
          = some ("<f" ++ Nat.repr i ++ ">" ++ ", ".intercalate f.1
              ++ (if f.1.length > 0 then " " else "") ++ toString f.2)) ∧
      dotRender regPoint
        = some [.digraphOpen, .subgraphOpen "cluster_p", .label "p",
            .node "p" "Point" "record" (structLabel "Point" [(["X", "Y"], .Ident "int")]),
            .subgraphClose, .digraphClose] ∧
      structLabel "Point" [(["X", "Y"], .Ident "int")]
        = "\x7b" ++ escape ("Point" ++ "|" ++ "<f0>" ++ "X, Y int") ++ "\x7d" := by
  have hcount : ∀ x : String × String × String × String, (x.1, x.2.1) = (P, D.Ident) →
      (nodesOf out).count x = (nodesOf (nodeStmt P D).toList).count x := by
    intro x hx
    rw [(dotRender_parts reg out hout).1]
    exact count_of_declaration (fun pkg d => nodesOf (nodeStmt pkg d).toList)
      (fun x => (x.1, x.2.1)) nodeStmt_source reg hwf P types key D hP hD x hx
  have hnode : nodesOf (nodeStmt P D).toList
      = [(P, D.Ident, "record", structLabel D.Ident fields)] := by
    obtain ⟨ident, t⟩ := D
    simp only at hshape
    subst hshape
    rw [nodeStmt_struct]
    rfl
  refine ⟨?_, ?_, ?_, rfl, by decide⟩
  · intro shape label
    rw [← mem_nodesOf, ← List.count_pos_iff, hcount _ rfl, hnode, List.count_pos_iff]
    simp
  · rw [hcount _ rfl, hnode]
    simp
  · intro i f hf
    simp [List.enum, List.getElem?_enumFrom, hf, structCompartment]

/-- C12, witness: the registry with `Point` alone. -/
theorem struct_node_label_witness :
    WellFormed regPoint ∧
      (nodesOf [Stmt.digraphOpen, .subgraphOpen "cluster_p", .label "p",
          .node "p" "Point" "record" (structLabel "Point" [(["X", "Y"], .Ident "int")]),
          .subgraphClose, .digraphClose]).count
        ("p", "Point", "record", structLabel "Point" [(["X", "Y"], .Ident "int")]) = 1 :=
  have hwf : WellFormed regPoint := by
    unfold WellFormed regPoint
    decide
  ⟨hwf,
    (struct_node_label regPoint _ "p"
      [("Point", ⟨"Point", .StructType [(["X", "Y"], .Ident "int")]⟩)] "Point"
      ⟨"Point", .StructType [(["X", "Y"], .Ident "int")]⟩ [(["X", "Y"], .Ident "int")]
      hwf rfl (List.Mem.head _) (List.Mem.head _) rfl).2.1⟩

/-! ### The flattened index -/

theorem lookup_cons_ite {β : Type} (k1 : String) (v1 : β) (rest : List (String × β))
    (q : String) :
    ((k1, v1) :: rest).lookup q = if q = k1 then some v1 else rest.lookup q := by
  by_cases h : q = k1
  · have hb : (q == k1) = true := beq_iff_eq.2 h
    simp [List.lookup, hb, h]
  · have hb : (q == k1) = false := beq_eq_false_iff_ne.2 h
    simp [List.lookup, hb, h]

theorem lookup_mapSet {β : Type} (m : List (String × β)) (k : String) (v : β) (q : String) :
    (mapSet m k v).lookup q = if q = k then some v else m.lookup q := by
  induction m with
  | nil => rw [mapSet, lookup_cons_ite]
  | cons e rest ih =>
    obtain ⟨k1, v1⟩ := e
    by_cases h1 : k1 = k
    · subst h1
      rw [mapSet, if_pos rfl, lookup_cons_ite, lookup_cons_ite]
      by_cases h : q = k1 <;> simp [h]
    · rw [mapSet, if_neg h1, lookup_cons_ite, lookup_cons_ite, ih]
      by_cases h : q = k
      · subst h
        have : ¬ q = k1 := fun e => h1 e.symm
        simp [this]
      · simp [h]

theorem flatTypes_eq_foldl (reg : Registry) :
    flatTypes reg = (flatAssignments reg).foldl (fun m a => mapSet m a.1 a.2) [] := by
  have inner : ∀ (p : String) (l : List (String × namedType)) (m : List (String × namedType)),
      l.foldl (fun flat entry => mapSet (mapSet flat entry.1 entry.2) (p ++ "." ++ entry.1) entry.2) m
        = (l.flatMap (fun entry => [(entry.1, entry.2), (p ++ "." ++ entry.1, entry.2)])).foldl
            (fun m a => mapSet m a.1 a.2) m := by
    intro p l
    induction l with
    | nil => intro m; rfl
    | cons e rest ih => intro m; simp [List.foldl_cons, List.flatMap_cons, ih]
  have outer : ∀ (r : Registry) (m : List (String × namedType)),
      r.foldl (fun flat pkg => pkg.2.foldl
          (fun flat entry => mapSet (mapSet flat entry.1 entry.2) (pkg.1 ++ "." ++ entry.1) entry.2)
          flat) m
        = (flatAssignments r).foldl (fun m a => mapSet m a.1 a.2) m := by
    intro r
    induction r with
    | nil => intro m; rfl
    | cons pkg rest ih =>
      intro m
      have e : flatAssignments (pkg :: rest)
          = pkg.2.flatMap (fun entry => [(entry.1, entry.2), (pkg.1 ++ "." ++ entry.1, entry.2)])
            ++ flatAssignments rest := by simp [flatAssignments]
      rw [List.foldl_cons, e, List.foldl_append, ← inner, ih]
  exact outer reg []

theorem lookup_assignments (as : List (String × namedType)) (m : List (String × namedType))
    (k : String) :
    (((as.foldl (fun m a => mapSet m a.1 a.2) m).lookup k).isSome
        ↔ (m.lookup k).isSome ∨ ∃ a ∈ as, a.1 = k) ∧
      (∀ v, (as.foldl (fun m a => mapSet m a.1 a.2) m).lookup k = some v →
        m.lookup k = some v ∨ (k, v) ∈ as) ∧
      (∀ v, (∀ a ∈ as, a.1 = k → a.2 = v) → (∃ a ∈ as, a.1 = k) →
        (as.foldl (fun m a => mapSet m a.1 a.2) m).lookup k = some v) := by
  induction as generalizing m with
  | nil => simp
  | cons a rest ih =>
    obtain ⟨h1, h2, h3⟩ := ih (mapSet m a.1 a.2)
    simp only [List.foldl_cons]
    refine ⟨?_, ?_, ?_⟩
    · rw [h1, lookup_mapSet]
      by_cases hk : k = a.1
      · simp [hk]
      · simp only [hk, if_false, List.mem_cons, exists_eq_or_imp]
        have : ¬ a.1 = k := fun e => hk e.symm
        simp [this]
    · intro v hv
      rcases h2 v hv with h | h
      · rw [lookup_mapSet] at h
        by_cases hk : k = a.1
        · rw [if_pos hk] at h
          right
          have : a = (k, v) := by
            obtain ⟨a1, a2⟩ := a
            simp only at hk h
            cases h
            rw [hk]
          rw [← this]
          exact List.mem_cons_self _ _
        · rw [if_neg hk] at h
          exact Or.inl h
      · exact Or.inr (List.mem_cons_of_mem _ h)
    · intro v hall hex
      by_cases hr : ∃ b ∈ rest, b.1 = k
      · exact h3 v (fun b hb => hall b (List.mem_cons_of_mem _ hb)) hr
      · obtain ⟨b, hb, hbk⟩ := hex
        have hba : b = a := by
          rcases List.mem_cons.1 hb with h | h
          · exact h
          · exact absurd ⟨b, h, hbk⟩ hr
        subst hba
        have hv : b.2 = v := hall b (List.mem_cons_self _ _) hbk
        have hnone : ∀ w, (rest.foldl (fun m a => mapSet m a.1 a.2) (mapSet m b.1 b.2)).lookup k
            = some w → w = v := by
          intro w hw
          rcases h2 w hw with h | h
          · rw [lookup_mapSet, if_pos hbk.symm] at h
            cases h
            exact hv
          · exact absurd ⟨(k, w), h, rfl⟩ hr
        have hsome : ((rest.foldl (fun m a => mapSet m a.1 a.2) (mapSet m b.1 b.2)).lookup k).isSome := by
          rw [h1, lookup_mapSet, if_pos hbk.symm]
          simp
        obtain ⟨w, hw⟩ := Option.isSome_iff_exists.1 hsome
        rw [hw, hnone w hw]

theorem containsDot_iff (s : String) : containsDot s = true ↔ '.' ∈ s.data := by
  simp [containsDot]

theorem containsDot_qualified (a b : String) : containsDot (a ++ "." ++ b) = true := by
  rw [containsDot_iff]
  simp [String.data_append]

theorem dot_split_chars (l1 l2 r1 r2 : List Char) (h1 : '.' ∉ l1) (h2 : '.' ∉ l2)
    (h : l1 ++ '.' :: r1 = l2 ++ '.' :: r2) : l1 = l2 ∧ r1 = r2 := by
  induction l1 generalizing l2 with
  | nil =>
    cases l2 with
    | nil => simpa using h
    | cons c cs =>
      simp only [List.nil_append, List.cons_append, List.cons.injEq] at h
      exact absurd (by rw [← h.1]; exact List.mem_cons_self _ _) h2
  | cons d ds ih =>
    cases l2 with
    | nil =>
      simp only [List.nil_append, List.cons_append, List.cons.injEq] at h
      exact absurd (by rw [h.1]; exact List.mem_cons_self _ _) h1
    | cons c cs =>
      simp only [List.cons_append, List.cons.injEq] at h
      obtain ⟨e1, e2⟩ := ih cs (fun m => h1 (List.mem_cons_of_mem _ m))
        (fun m => h2 (List.mem_cons_of_mem _ m)) h.2
      exact ⟨by rw [h.1, e1], e2⟩

theorem dot_split (a b c d : String) (ha : containsDot a = false) (hc : containsDot c = false)
    (h : a ++ "." ++ b = c ++ "." ++ d) : a = c ∧ b = d := by
  have ha1 : '.' ∉ a.data := fun m => by rw [(containsDot_iff a).2 m] at ha; cases ha
  have hc1 : '.' ∉ c.data := fun m => by rw [(containsDot_iff c).2 m] at hc; cases hc
  have h2 := congrArg String.data h
  simp only [String.data_append, List.append_assoc] at h2
  have h3 : a.data ++ '.' :: b.data = c.data ++ '.' :: d.data := h2
  obtain ⟨e1, e2⟩ := dot_split_chars _ _ _ _ ha1 hc1 h3
  exact ⟨String.ext e1, String.ext e2⟩

theorem mem_flatAssignments (reg : Registry) (a : String × namedType) :
    a ∈ flatAssignments reg ↔
      ∃ pkg ∈ reg, ∃ e ∈ pkg.2, a = (e.1, e.2) ∨ a = (pkg.1 ++ "." ++ e.1, e.2) := by
  simp [flatAssignments, List.mem_flatMap]

theorem mapHas_flatTypes (reg : Registry) (k : String) :
    mapHas (flatTypes reg) k = true ↔
      ∃ pkg ∈ reg, ∃ e ∈ pkg.2, k = e.1 ∨ k = pkg.1 ++ "." ++ e.1 := by
  rw [mapHas, flatTypes_eq_foldl, (lookup_assignments (flatAssignments reg) [] k).1]
  simp only [List.lookup, Option.isSome_none, Bool.false_eq_true, false_or]
  constructor
  · rintro ⟨a, ha, rfl⟩
    obtain ⟨pkg, hp, e, he, h | h⟩ := (mem_flatAssignments reg a).1 ha
    · exact ⟨pkg, hp, e, he, Or.inl (by rw [h])⟩
    · exact ⟨pkg, hp, e, he, Or.inr (by rw [h])⟩
  · rintro ⟨pkg, hp, e, he, h | h⟩
    · exact ⟨(e.1, e.2), (mem_flatAssignments reg _).2 ⟨pkg, hp, e, he, Or.inl rfl⟩, h.symm⟩
    · exact ⟨(pkg.1 ++ "." ++ e.1, e.2),
        (mem_flatAssignments reg _).2 ⟨pkg, hp, e, he, Or.inr rfl⟩, h.symm⟩

/-- C14: for a registry whose package and declaration names contain no dot, the
flattened index has the key `k` exactly when `k` is the bare name of a
declaration or `<package>.<name>` for a declaration `<name>` of `<package>`;
the entry under `<package>.<name>` is the record of that declaration; and the
entry under a bare name is the record of one of the declarations of that
name. -/
theorem flatTypes_keys_and_entries (reg : Registry) (hwf : WellFormed reg) (hnd : NoDots reg) :
    (∀ k, mapHas (flatTypes reg) k = true ↔
        ∃ pkg ∈ reg, ∃ e ∈ pkg.2, k = e.1 ∨ k = pkg.1 ++ "." ++ e.1) ∧
      (∀ pkg ∈ reg, ∀ e ∈ pkg.2,
        (flatTypes reg).lookup (pkg.1 ++ "." ++ e.1) = some e.2) ∧
      (∀ pkg ∈ reg, ∀ e ∈ pkg.2, ∃ pkg1 ∈ reg, ∃ e1 ∈ pkg1.2,
        e1.1 = e.1 ∧ (flatTypes reg).lookup e.1 = some e1.2) := by
  refine ⟨mapHas_flatTypes reg, ?_, ?_⟩
  · intro pkg hp e he
    rw [flatTypes_eq_foldl]
    apply (lookup_assignments (flatAssignments reg) [] _).2.2
    · intro a ha hk
      obtain ⟨pkg1, hp1, e1, he1, h | h⟩ := (mem_flatAssignments reg a).1 ha
      · rw [h] at hk
        simp only at hk
        have hd := ((hnd pkg1 hp1).2 e1 he1)
        rw [hk, containsDot_qualified] at hd
        cases hd
      · rw [h] at hk ⊢
        simp only at hk ⊢
        obtain ⟨x1, x2⟩ := dot_split _ _ _ _ (hnd pkg1 hp1).1 (hnd pkg hp).1 hk
        obtain ⟨p1, ts1⟩ := pkg1
        obtain ⟨p, ts⟩ := pkg
        simp only at x1 he1 he hp hp1
        subst x1
        have hts : ts1 = ts := lookup_unique reg p1 ts1 ts hwf.1 hp1 hp
        subst hts
        obtain ⟨k1, v1⟩ := e1
        obtain ⟨k, v⟩ := e
        simp only at x2 ⊢
        subst x2
        exact lookup_unique ts1 k1 v1 v (hwf.2 _ hp).1 he1 he
    · exact ⟨(pkg.1 ++ "." ++ e.1, e.2),
        (mem_flatAssignments reg _).2 ⟨pkg, hp, e, he, Or.inr rfl⟩, rfl⟩
  · intro pkg hp e he
    have hsome : mapHas (flatTypes reg) e.1 = true :=
      (mapHas_flatTypes reg e.1).2 ⟨pkg, hp, e, he, Or.inl rfl⟩
    obtain ⟨v, hv⟩ := Option.isSome_iff_exists.1 hsome
    have hv1 := hv
    rw [flatTypes_eq_foldl] at hv1
    rcases (lookup_assignments (flatAssignments reg) [] e.1).2.1 v hv1 with h | h
    · simp [List.lookup] at h
    · obtain ⟨pkg1, hp1, e1, he1, h | h⟩ := (mem_flatAssignments reg _).1 h
      · have h1 := (Prod.mk.inj h).1
        have h2 := (Prod.mk.inj h).2
        exact ⟨pkg1, hp1, e1, he1, h1.symm, by rw [hv, h2]⟩
      · have h1 := (Prod.mk.inj h).1
        have hd := (hnd pkg hp).2 e he
        rw [h1, containsDot_qualified] at hd
        cases hd

/-- C14, witness: the entry `a.S` of the registry with the packages `a` and `b`. -/
theorem flatTypes_keys_and_entries_witness :
    WellFormed regCrossPackage ∧ NoDots regCrossPackage ∧
      (flatTypes regCrossPackage).lookup ("a" ++ "." ++ "S")
        = some ⟨"S", .StructType [(["f"], .Ident "B")]⟩ :=
  have hwf : WellFormed regCrossPackage := by
    unfold WellFormed regCrossPackage
    decide
  have hnd : NoDots regCrossPackage := by
    unfold NoDots regCrossPackage
    decide
  ⟨hwf, hnd,
    (flatTypes_keys_and_entries regCrossPackage hwf hnd).2.1
      ("a", [("S", ⟨"S", .StructType [(["f"], .Ident "B")]⟩)]) (List.Mem.head _)
      ("S", ⟨"S", .StructType [(["f"], .Ident "B")]⟩) (List.Mem.head _)⟩

/-! ### One declaration at a time -/

theorem count_edgesOf_declaration (reg : Registry) (out : List Stmt) (P : String)
    (types : List (String × namedType)) (key : String) (D : namedType)
    (hwf : WellFormed reg) (hout : dotRender reg = some out)
    (hP : (P, types) ∈ reg) (hD : (key, D) ∈ types) (i : Nat) (t : String) :
    (edgesOf out).count (P, D.Ident, i, t)
      = (edgesOf ((edgeStmts (flatTypes reg) P D).getD [])).count (P, D.Ident, i, t) := by
  rw [(dotRender_parts reg out hout).2]
  exact count_of_declaration (fun pkg d => edgesOf ((edgeStmts (flatTypes reg) pkg d).getD []))
    (fun x => (x.1, x.2.1)) (edgeStmts_source (flatTypes reg)) reg hwf P types key D hP hD _ rfl

theorem mem_edgesOf_declaration (reg : Registry) (out : List Stmt) (P : String)
    (types : List (String × namedType)) (key : String) (D : namedType)
    (hwf : WellFormed reg) (hout : dotRender reg = some out)
    (hP : (P, types) ∈ reg) (hD : (key, D) ∈ types) (i : Nat) (t : String) :
    Stmt.edge P D.Ident i t ∈ out ↔
      (P, D.Ident, i, t) ∈ edgesOf ((edgeStmts (flatTypes reg) P D).getD []) := by
  rw [← mem_edgesOf, ← List.count_pos_iff,
    count_edgesOf_declaration reg out P types key D hwf hout hP hD, List.count_pos_iff]

theorem mem_nodesOf_declaration (reg : Registry) (out : List Stmt) (P : String)
    (types : List (String × namedType)) (key : String) (D : namedType)
    (hwf : WellFormed reg) (hout : dotRender reg = some out)
    (hP : (P, types) ∈ reg) (hD : (key, D) ∈ types) (shape label : String) :
    Stmt.node P D.Ident shape label ∈ out ↔
      (P, D.Ident, shape, label) ∈ nodesOf (nodeStmt P D).toList := by
  rw [← mem_nodesOf, ← List.count_pos_iff, (dotRender_parts reg out hout).1,
    count_of_declaration (fun pkg d => nodesOf (nodeStmt pkg d).toList)
      (fun x => (x.1, x.2.1)) nodeStmt_source reg hwf P types key D hP hD _ rfl,
    List.count_pos_iff]

theorem dotRender_nodeIds (reg : Registry) (out : List Stmt) (h : dotRender reg = some out) :
    nodeIds out = ((declarations reg).filter (fun d => recognized d.2.Typ)).map
      (fun d => nodeId d.1 d.2.Ident) := by
  obtain ⟨ns, es, hns, hes, rfl⟩ := dotRender_some reg out h
  obtain ⟨n1, _, _⟩ := nodePass_spec reg ns hns
  obtain ⟨e1, _, _⟩ := edgePass_spec (flatTypes reg) reg es hes
  simp only [nodeIds_append, n1, e1]
  simp [nodeIds]

theorem mem_declarations (reg : Registry) (d : String × namedType) :
    d ∈ declarations reg ↔ ∃ pkg ∈ reg, ∃ e ∈ pkg.2, d = (pkg.1, e.2) := by
  simp only [declarations, List.mem_flatMap, List.mem_map]
  constructor
  · rintro ⟨pkg, hp, e, he, rfl⟩
    exact ⟨pkg, hp, e, he, rfl⟩
  · rintro ⟨pkg, hp, e, he, rfl⟩
    exact ⟨pkg, hp, e, he, rfl⟩

theorem nodeId_ne (A B name : String) (h : A ≠ B) : nodeId A name ≠ nodeId B name := by
  intro e
  apply h
  have h2 := congrArg String.data e
  simp only [nodeId, String.data_append, List.append_assoc] at h2
  have h3 := List.append_cancel_left h2
  rw [← List.append_assoc, ← List.append_assoc] at h3
  exact String.ext (List.append_cancel_right (List.append_cancel_right h3))

/-- C13 (as amended): with `Config` declared in the distinct packages `A` and `B`,
a Struct declaration of `A` gets, for a field of type `B.Config`, an edge to
`node-B.Config`, and for a field of type `Config`, an edge to `node-A.Config`;
the two targets differ; each is the id of an emitted node when the `Config` it
names has a recognized shape, and a `Config` of another shape has no node. -/
theorem config_edges (reg : Registry) (out : List Stmt) (A B : String)
    (typesA typesB : List (String × namedType)) (cA cB : namedType) (key : String)
    (D : namedType) (fields : List FieldEntry)
    (hwf : WellFormed reg) (hout : dotRender reg = some out)
    (hA : (A, typesA) ∈ reg) (hB : (B, typesB) ∈ reg) (hAB : A ≠ B)
    (hcA : ("Config", cA) ∈ typesA) (hcB : ("Config", cB) ∈ typesB)
    (hD : (key, D) ∈ typesA) (hshape : D.Typ = .StructType fields) :
    (∀ i names, fields[i]? = some (names, .SelectorExpr (.Ident B) "Config") →
        Stmt.edge A D.Ident i (nodeId B "Config") ∈ out) ∧
      (∀ i names, fields[i]? = some (names, .Ident "Config") →
        Stmt.edge A D.Ident i (nodeId A "Config") ∈ out) ∧
      nodeId A "Config" ≠ nodeId B "Config" ∧
      (recognized cA.Typ = true → nodeId A "Config" ∈ nodeIds out) ∧
      (recognized cB.Typ = true → nodeId B "Config" ∈ nodeIds out) ∧
      (recognized cB.Typ = false → ∀ shape label, Stmt.node B "Config" shape label ∉ out) := by
  have hDe : edgeStmts (flatTypes reg) A D
      = some (fieldEdges (flatTypes reg) A D.Ident 0 fields) := by
    obtain ⟨ident, t⟩ := D
    simp only at hshape
    subst hshape
    rfl
  obtain ⟨_, _, f3⟩ := edgesOf_fieldEdges (flatTypes reg) A D.Ident 0 fields
  have hidA : cA.Ident = "Config" := (hwf.2 _ hA).2 _ hcA
  have hidB : cB.Ident = "Config" := (hwf.2 _ hB).2 _ hcB
  have hnode : ∀ (P : String) (types : List (String × namedType)) (c : namedType),
      (P, types) ∈ reg → ("Config", c) ∈ types → c.Ident = "Config" →
      recognized c.Typ = true → nodeId P "Config" ∈ nodeIds out := by
    intro P types c hP hc hid hr
    rw [dotRender_nodeIds reg out hout]
    refine List.mem_map.2 ⟨(P, c), List.mem_filter.2 ⟨?_, hr⟩, by simp [hid]⟩
    exact (mem_declarations reg _).2 ⟨(P, types), hP, ("Config", c), hc, rfl⟩
  refine ⟨?_, ?_, nodeId_ne A B "Config" hAB, hnode A typesA cA hA hcA hidA,
    hnode B typesB cB hB hcB hidB, ?_⟩
  · intro i names hf
    rw [mem_edgesOf_declaration reg out A typesA key D hwf hout hA hD, hDe]
    refine (f3 _ _ _ _).2 ⟨rfl, rfl, Nat.zero_le _, _, by simpa using hf,
      B ++ "." ++ "Config", by simp [dependsOn, toString], ?_, ?_⟩
    · exact (mapHas_flatTypes reg _).2 ⟨(B, typesB), hB, ("Config", cB), hcB, Or.inr rfl⟩
    · rw [qualify, containsDot_qualified]
      simp [nodeId, String.append_assoc]
  · intro i names hf
    rw [mem_edgesOf_declaration reg out A typesA key D hwf hout hA hD, hDe]
    refine (f3 _ _ _ _).2 ⟨rfl, rfl, Nat.zero_le _, _, by simpa using hf,
      "Config", by simp [dependsOn], ?_, ?_⟩
    · exact (mapHas_flatTypes reg _).2 ⟨(A, typesA), hA, ("Config", cA), hcA, Or.inl rfl⟩
    · have hc : containsDot "Config" = false := by decide
      rw [qualify, hc]
      simp [nodeId, String.append_assoc]
  · intro hr shape label hmem
    have h1 := (mem_nodesOf_declaration reg out B typesB "Config" cB hwf hout hB hcB shape label).1
      (by rw [hidB]; exact hmem)
    obtain ⟨ident, t⟩ := cB
    simp only at hr
    cases t with
    | InterfaceType methods => simp [recognized] at hr
    | _ => first | (simp [recognized] at hr; done) | simp [nodeStmt, nodesOf] at h1

/-- C13, witness: the struct `S` of `pkgA` with a field of type `pkgB.Config`. -/
theorem config_edges_witness :
    WellFormed regConfigs ∧ dotRender regConfigs = some outConfigs ∧
      Stmt.edge "pkgA" "S" 0 (nodeId "pkgB" "Config") ∈ outConfigs :=
  have hwf : WellFormed regConfigs := by
    unfold WellFormed regConfigs
    decide
  ⟨hwf, rfl,
    (config_edges regConfigs outConfigs "pkgA" "pkgB"
      [("Config", ⟨"Config", .StructType []⟩),
       ("S", ⟨"S", .StructType [(["remote"], .SelectorExpr (.Ident "pkgB") "Config"),
                                (["local"], .Ident "Config")]⟩)]
      [("Config", ⟨"Config", .StructType []⟩)]
      ⟨"Config", .StructType []⟩ ⟨"Config", .StructType []⟩ "S"
      ⟨"S", .StructType [(["remote"], .SelectorExpr (.Ident "pkgB") "Config"),
                         (["local"], .Ident "Config")]⟩
      [(["remote"], .SelectorExpr (.Ident "pkgB") "Config"), (["local"], .Ident "Config")]
      hwf rfl (List.Mem.head _) (List.Mem.tail _ (List.Mem.head _)) (by decide)
      (List.Mem.head _) (List.Mem.head _) (List.Mem.tail _ (List.Mem.head _)) rfl).1
      0 ["remote"] rfl⟩

/-- C13, counterexample: `pkgB` declares `type Config *int`, a shape without an
arm in the node `switch`. The struct `S` of `pkgA` with a field of type
`pkgB.Config` gets its edge to `node-pkgB.Config`, but no node statement has
that id. -/
theorem config_edge_to_missing_node :
    ∃ out, dotRender regConfigPointer = some out ∧
      Stmt.edge "pkgA" "S" 0 (nodeId "pkgB" "Config") ∈ out ∧
      edgesOf out = [("pkgA", "S", 0, "node-pkgB.Config")] ∧
      nodeIds out = ["node-pkgA.Config", "node-pkgA.S"] ∧
      nodeId "pkgB" "Config" ∉ nodeIds out := by
  refine ⟨_, rfl, ?_, by decide, by decide, by decide⟩
  rw [← mem_edgesOf]
  decide

/-! ### Multiplicity of the edges of a compartment -/

theorem count_fieldEdges (flat : List (String × namedType)) (pkg name : String)
    (fields : List FieldEntry) (i C : Nat) (f : FieldEntry) (t : String)
    (hle : i ≤ C) (hf : fields[C - i]? = some f) :
    (edgesOf (fieldEdges flat pkg name i fields)).count (pkg, name, C, t)
      = (edgesOf (compartmentEdges flat pkg name C (dedup (dependsOn f.2)))).count
          (pkg, name, C, t) := by
  induction fields generalizing i with
  | nil => simp at hf
  | cons g rest ih =>
    rw [fieldEdges, edgesOf_append, List.count_append]
    by_cases hc : C = i
    · subst hc
      simp only [Nat.sub_self, List.getElem?_cons_zero, Option.some.injEq] at hf
      subst hf
      have hz : (edgesOf (fieldEdges flat pkg name (C + 1) rest)).count (pkg, name, C, t) = 0 := by
        apply List.count_eq_zero_of_not_mem
        intro hm
        have := ((edgesOf_fieldEdges flat pkg name (C + 1) rest).2.2 _ _ _ _).1 hm
        omega
      rw [hz, Nat.add_zero]
    · have hz : (edgesOf (compartmentEdges flat pkg name i (dedup (dependsOn g.2)))).count
          (pkg, name, C, t) = 0 := by
        apply List.count_eq_zero_of_not_mem
        intro hm
        rw [(edgesOf_compartmentEdges flat pkg name i _).2.2] at hm
        obtain ⟨T, _, hT⟩ := List.mem_map.1 hm
        simp only [Prod.mk.injEq] at hT
        exact hc hT.2.2.1.symm
      have e : C - i = (C - (i + 1)) + 1 := by omega
      rw [e, List.getElem?_cons_succ] at hf
      rw [hz, Nat.zero_add]
      exact ih (i + 1) (by omega) hf

theorem count_compartmentEdges (flat : List (String × namedType)) (pkg name : String)
    (C : Nat) (names : List String) (t : String) :
    (edgesOf (compartmentEdges flat pkg name C names)).count (pkg, name, C, t)
      = (names.filter
          (fun T => mapHas flat T && decide ("node-" ++ qualify pkg T = t))).length := by
  rw [(edgesOf_compartmentEdges flat pkg name C names).2.2]
  induction names with
  | nil => rfl
  | cons T rest ih =>
    by_cases hm : mapHas flat T = true
    · by_cases ht : "node-" ++ qualify pkg T = t
      · simp [List.filter_cons, hm, ht, List.count_cons] at ih ⊢
        exact ih
      · simp [List.filter_cons, hm, ht, List.count_cons] at ih ⊢
        exact ih
    · simp [List.filter_cons, hm] at ih ⊢
      exact ih

theorem node_prefix_cancel (a b : String) (h : "node-" ++ a = "node-" ++ b) : a = b := by
  have h2 := congrArg String.data h
  simp only [String.data_append] at h2
  exact String.ext (List.append_cancel_left h2)

theorem length_le_one_of_nodup_of_all_eq {α : Type} (l : List α) (hn : l.Nodup)
    (h : ∀ a ∈ l, ∀ b ∈ l, a = b) : l.length ≤ 1 := by
  match l, hn, h with
  | [], _, _ => simp
  | [_], _, _ => simp
  | a :: b :: rest, hn, h =>
    have hab : a = b := h a (by simp) b (by simp)
    rw [hab] at hn
    simp at hn

/-- C15 (as amended): for a compartment of a Struct or Interface declaration, the
number of edges to a target is the number of distinct resolved names of the
compartment that are keys of the flattened index and whose qualified form gives
that target. The deduplicated names are pairwise distinct, so there is at most
one edge per target whenever no two distinct resolved names of the compartment
have the same qualified form. -/
theorem edges_per_compartment (reg : Registry) (out : List Stmt) (P : String)
    (types : List (String × namedType)) (key : String) (D : namedType)
    (fields : List FieldEntry) (C : Nat) (f : FieldEntry) (target : String)
    (hwf : WellFormed reg) (hout : dotRender reg = some out)
    (hP : (P, types) ∈ reg) (hD : (key, D) ∈ types)
    (hshape : D.Typ = .StructType fields ∨ D.Typ = .InterfaceType (some fields))
    (hC : fields[C]? = some f) :
    (edgesOf out).count (P, D.Ident, C, target)
        = ((dedup (dependsOn f.2)).filter
            (fun T => mapHas (flatTypes reg) T
              && decide ("node-" ++ qualify P T = target))).length ∧
      (dedup (dependsOn f.2)).Nodup ∧
      ((∀ T1 ∈ dependsOn f.2, ∀ T2 ∈ dependsOn f.2, qualify P T1 = qualify P T2 → T1 = T2) →
        (edgesOf out).count (P, D.Ident, C, target) ≤ 1) := by
  have hDe : edgeStmts (flatTypes reg) P D
      = some (fieldEdges (flatTypes reg) P D.Ident 0 fields) := by
    obtain ⟨ident, t⟩ := D
    rcases hshape with hs | hs <;> simp only at hs <;> subst hs <;> rfl
  have hnd : (dedup (dependsOn f.2)).Nodup := dedup_loop_nodup _ [] List.nodup_nil
  have hcount : (edgesOf out).count (P, D.Ident, C, target)
        = ((dedup (dependsOn f.2)).filter
            (fun T => mapHas (flatTypes reg) T
              && decide ("node-" ++ qualify P T = target))).length := by
    rw [count_edgesOf_declaration reg out P types key D hwf hout hP hD, hDe, Option.getD_some,
      count_fieldEdges (flatTypes reg) P D.Ident fields 0 C f target (Nat.zero_le _)
        (by simpa using hC),
      count_compartmentEdges]
  refine ⟨hcount, hnd, ?_⟩
  intro hinj
  rw [hcount]
  apply length_le_one_of_nodup_of_all_eq _ (hnd.filter _)
  intro a ha b hb
  obtain ⟨ha1, ha2⟩ := List.mem_filter.1 ha
  obtain ⟨hb1, hb2⟩ := List.mem_filter.1 hb
  simp only [Bool.and_eq_true, decide_eq_true_eq] at ha2 hb2
  apply hinj a ((mem_dedup _ a).1 ha1) b ((mem_dedup _ b).1 hb1)
  exact node_prefix_cancel _ _ (ha2.2.trans hb2.2.symm)

/-- C15, witness: compartment 0 of the struct `S` of `pkgA` in `regConfigs`. -/
theorem edges_per_compartment_witness :
    WellFormed regConfigs ∧ dotRender regConfigs = some outConfigs ∧
      (edgesOf outConfigs).count ("pkgA", "S", 0, "node-pkgB.Config")
        = ((dedup (dependsOn (.SelectorExpr (.Ident "pkgB") "Config"))).filter
            (fun T => mapHas (flatTypes regConfigs) T
              && decide ("node-" ++ qualify "pkgA" T = "node-pkgB.Config"))).length :=
  have hwf : WellFormed regConfigs := by
    unfold WellFormed regConfigs
    decide
  ⟨hwf, rfl,
    (edges_per_compartment regConfigs outConfigs "pkgA"
      [("Config", ⟨"Config", .StructType []⟩),
       ("S", ⟨"S", .StructType [(["remote"], .SelectorExpr (.Ident "pkgB") "Config"),
                                (["local"], .Ident "Config")]⟩)]
      "S"
      ⟨"S", .StructType [(["remote"], .SelectorExpr (.Ident "pkgB") "Config"),
                         (["local"], .Ident "Config")]⟩
      [(["remote"], .SelectorExpr (.Ident "pkgB") "Config"), (["local"], .Ident "Config")]
      0 (["remote"], .SelectorExpr (.Ident "pkgB") "Config") "node-pkgB.Config"
      hwf rfl (List.Mem.head _) (List.Mem.tail _ (List.Mem.head _)) (Or.inl rfl) rfl).1⟩

/-- C15, counterexample: in `pkgA`, the field `m map[Config]pkgA.Config` of the
struct `S` names `Config` once bare and once qualified. The two names are
distinct, both are keys of the index, and both qualify to `pkgA.Config`: two
edges go from compartment 0 of `S` to `node-pkgA.Config`. -/
theorem two_edges_to_one_target :
    ∃ out, dotRender regDoubleConfig = some out ∧
      dedup (dependsOn (.MapType (.Ident "Config") (.SelectorExpr (.Ident "pkgA") "Config")))
        = ["Config", "pkgA.Config"] ∧
      edgesOf out = [("pkgA", "S", 0, "node-pkgA.Config"), ("pkgA", "S", 0, "node-pkgA.Config")] ∧
      (edgesOf out).count ("pkgA", "S", 0, nodeId "pkgA" "Config") = 2 ∧
      ¬ (edgesOf out).count ("pkgA", "S", 0, nodeId "pkgA" "Config") ≤ 1 := by
  refine ⟨_, rfl, by decide, by decide, by decide, by decide⟩

/-- C16 (the code at the failing input): the Function and Channel arms range over
`dependsOn(t)` itself, not over `dedup(dependsOn(t))`. For
`type F func(Point, Point)` with `Point` declared, there are two edges to
`node-Point`, one with index 0 and one with index 1; likewise for
`type C chan map[Point]Point`. -/
theorem function_edges_not_deduplicated :
    dependsOn (.FuncType (some [([], .Ident "Point"), ([], .Ident "Point")]) none)
        = ["Point", "Point"] ∧
      dedup ["Point", "Point"] = ["Point"] ∧
      (dotRender regTwoPoints).map edgesOf
        = some [("p", "F", 0, "node-Point"), ("p", "F", 1, "node-Point"),
                ("p", "C", 0, "node-Point"), ("p", "C", 1, "node-Point")] ∧
      (dotRender regTwoPoints).map nodeIds = some ["node-p.F", "node-p.Point", "node-p.C"] := by
  refine ⟨by decide, by decide, by decide, by decide⟩

/-- The name loop of an interface compartment on a hand-built entry with several
names, which `go/parser` does not build: the name is written first and a comma
after it when the index is positive, so `a`, `b`, `c` give `ab,c,`, where the
comment on line 109 reads `a,b,c` and the struct loop gives `a, b, c`. With one
name or none the text is the name or empty. -/
theorem interface_names_comma_misplaced :
    interfaceNames 0 ["a", "b"] = "ab," ∧
      interfaceNames 0 ["a", "b", "c"] = "ab,c," ∧
      structNames 0 ["a", "b", "c"] = "a, b, c" ∧
      interfaceCompartments 0 [(["a", "b"], .FuncType (some []) none)] = "<f0>ab, func()" ∧
      (dotRender regTwoNames).map nodesOf
        = some [("p", "I", "Mrecord", "\x7bI\\ interface|<f0>ab,\\ func\\(\\)\x7d")] ∧
      (∀ n : String, interfaceNames 0 [n] = n) ∧ interfaceNames 0 [] = "" := by
  refine ⟨by decide, by decide, by decide, by decide, by decide, ?_, rfl⟩
  intro n
  simp [interfaceNames]

/-! ### Edges and shapes -/

theorem edgeStmts_of_not_edgeShape (flat : List (String × namedType)) (pkg : String)
    (d : namedType) (h : edgeShape d.Typ = false) : edgeStmts flat pkg d = some [] := by
  obtain ⟨ident, t⟩ := d
  cases t <;> first | rfl | simp [edgeShape] at h

/-- C19: every edge statement of `dotRender` has as its source a declaration of
the registry whose shape is Function, Channel, Interface or Struct; a registry
without such a declaration renders with no edge; and a declaration of another
shape is the source of no edge. The registry of `type Points []Point`,
`type Point int`, a map type and a qualified alias has no edge. -/
theorem edges_only_from_edge_shapes (reg : Registry) (out : List Stmt)
    (hout : dotRender reg = some out) :
    (∀ p n i t, Stmt.edge p n i t ∈ out →
        ∃ pkg ∈ reg, ∃ e ∈ pkg.2, pkg.1 = p ∧ e.2.Ident = n ∧ edgeShape e.2.Typ = true) ∧
      ((∀ d ∈ declarations reg, edgeShape d.2.Typ = false) → edgesOf out = []) ∧
      (WellFormed reg → ∀ pkg ∈ reg, ∀ e ∈ pkg.2, edgeShape e.2.Typ = false →
        ∀ i t, Stmt.edge pkg.1 e.2.Ident i t ∉ out) ∧
      (dotRender regAliases).map edgesOf = some [] := by
  have hparts := (dotRender_parts reg out hout).2
  have hsrc : ∀ x ∈ edgesOf out, ∃ pkg ∈ reg, ∃ e ∈ pkg.2,
      x ∈ edgesOf ((edgeStmts (flatTypes reg) pkg.1 e.2).getD []) := by
    intro x hx
    rw [hparts] at hx
    obtain ⟨pkg, hp, hx1⟩ := List.mem_flatMap.1 hx
    obtain ⟨e, he, hx2⟩ := List.mem_flatMap.1 hx1
    exact ⟨pkg, hp, e, he, hx2⟩
  have hshape : ∀ (pkg : String) (d : namedType) (x : String × String × Nat × String),
      x ∈ edgesOf ((edgeStmts (flatTypes reg) pkg d).getD []) → edgeShape d.Typ = true := by
    intro pkg d x hx
    by_contra hne
    have hf : edgeShape d.Typ = false := by simpa using hne
    rw [edgeStmts_of_not_edgeShape _ _ _ hf] at hx
    simp [edgesOf] at hx
  refine ⟨?_, ?_, ?_, by decide⟩
  · intro p n i t hmem
    obtain ⟨pkg, hp, e, he, hx⟩ := hsrc _ ((mem_edgesOf out p n i t).2 hmem)
    have hs := edgeStmts_source _ _ _ _ hx
    simp only [Prod.mk.injEq] at hs
    exact ⟨pkg, hp, e, he, hs.1.symm, hs.2.symm, hshape _ _ _ hx⟩
  · intro hall
    apply List.eq_nil_iff_forall_not_mem.2
    intro x hx
    obtain ⟨pkg, hp, e, he, hx1⟩ := hsrc x hx
    have h1 := hshape _ _ _ hx1
    rw [hall (pkg.1, e.2) ((mem_declarations reg _).2 ⟨pkg, hp, e, he, rfl⟩)] at h1
    cases h1
  · intro hwf pkg hp e he hf i t hmem
    obtain ⟨p, ts⟩ := pkg
    obtain ⟨k, d⟩ := e
    have := (mem_edgesOf_declaration reg out p ts k d hwf hout hp he i t).1 hmem
    rw [edgeStmts_of_not_edgeShape _ _ _ hf] at this
    simp [edgesOf] at this

/-- C19, witness: the edge of the struct `S` of `pkgA` in `regConfigs`. -/
theorem edges_only_from_edge_shapes_witness :
    dotRender regConfigs = some outConfigs ∧
      ∃ pkg ∈ regConfigs, ∃ e ∈ pkg.2,
        pkg.1 = "pkgA" ∧ e.2.Ident = "S" ∧ edgeShape e.2.Typ = true :=
  ⟨rfl,
    (edges_only_from_edge_shapes regConfigs outConfigs rfl).1 "pkgA" "S" 0 "node-pkgB.Config"
      (by simp [outConfigs])⟩

/-! ### Escaping and the double quote -/

theorem escapeOne_doubleQuote : escapeOne (Char.ofNat 34) = [Char.ofNat 34] := by decide

theorem escape_data (s : String) : (escape s).data = s.data.flatMap escapeOne :=
  escapeChars_eq s.data

theorem escape_append (s t : String) : escape (s ++ t) = escape s ++ escape t := by
  apply String.ext
  rw [String.data_append, escape_data, escape_data, escape_data, String.data_append,
    List.flatMap_append]

/-- C18 (as amended): `escape` puts a backslash in front of every single quote
and every backquote, but the double quote is not in the escape set: it is
copied as it is, with nothing inserted before it, so `escape s` contains a
double quote exactly when `s` does. -/
theorem escape_leaves_double_quote (s : String) :
    (∀ (i : Nat) (c : Char), (escape s).data[i]? = some c →
        (c = Char.ofNat 39 ∨ c = Char.ofNat 96) →
        ∃ j, i = j + 1 ∧ (escape s).data[j]? = some '\\') ∧
      (∀ t : String, escape (s ++ "\x22" ++ t) = escape s ++ "\x22" ++ escape t) ∧
      ((Char.ofNat 34) ∈ (escape s).data ↔ (Char.ofNat 34) ∈ s.data) ∧
      Char.ofNat 34 ∉ escapeSet := by
  have h : (escape s).data = s.data.flatMap escapeOne := escapeChars_eq s.data
  refine ⟨?_, ?_, ?_, by decide⟩
  · intro i c hi hc
    rw [h] at hi ⊢
    apply flatMap_escapeOne_preceded s.data i c hi
    rcases hc with rfl | rfl <;> decide
  · intro t
    rw [escape_append, escape_append]
    rfl
  · rw [h, List.mem_flatMap]
    constructor
    · rintro ⟨c, hc, hq⟩
      by_cases hs : c ∈ escapeSet
      · simp only [escapeOne, hs, if_true, List.mem_cons, List.mem_singleton,
          List.not_mem_nil, or_false] at hq
        rcases hq with hq | hq
        · exact absurd hq (by decide)
        · rw [hq]; exact hc
      · simp only [escapeOne, hs, if_false, List.mem_singleton] at hq
        rw [hq]; exact hc
    · intro hq
      exact ⟨Char.ofNat 34, hq, by rw [escapeOne_doubleQuote]; exact List.mem_singleton.2 rfl⟩

/-- C18, witness: the single quote between `it` and `s`. -/
theorem escape_leaves_double_quote_witness :
    (escape "it\x27s").data[3]? = some (Char.ofNat 39) ∧
      ∃ j, 3 = j + 1 ∧ (escape "it\x27s").data[j]? = some '\\' :=
  ⟨by decide,
    (escape_leaves_double_quote "it\x27s").1 3 (Char.ofNat 39) (by decide) (Or.inl rfl)⟩

/-- C18, counterexample: `escape` returns unchanged the text made of `a`, a
double quote and `b`; the double quote, at index 1, stands after `a` and not
after a backslash. -/
theorem escape_double_quote_unescaped :
    escape "\x22" = "\x22" ∧ escape "a\x22b" = "a\x22b" ∧
      (escape "a\x22b").data[1]? = some (Char.ofNat 34) ∧
      (escape "a\x22b").data[0]? = some 'a' ∧
      ¬ (∀ (i : Nat), (escape "a\x22b").data[i]? = some (Char.ofNat 34) →
          ∃ j, i = j + 1 ∧ (escape "a\x22b").data[j]? = some '\\') := by
  refine ⟨by decide, by decide, by decide, by decide, ?_⟩
  intro h
  obtain ⟨j, hj, hb⟩ := h 1 (by decide)
  have : j = 0 := by omega
  subst this
  revert hb
  decide

/-! ### The merge of `main` -/

theorem lookup_foldl_mapSet_of_absent {β : Type} (as : List (String × β))
    (m : List (String × β)) (k : String) (h : ∀ a ∈ as, a.1 ≠ k) :
    (as.foldl (fun m a => mapSet m a.1 a.2) m).lookup k = m.lookup k := by
  induction as generalizing m with
  | nil => rfl
  | cons a rest ih =>
    rw [List.foldl_cons, ih _ (fun b hb => h b (List.mem_cons_of_mem _ hb)), lookup_mapSet,
      if_neg (fun e => h a (List.mem_cons_self _ _) e.symm)]

theorem lookup_foldl_mapSet_of_last {β : Type} (as : List (String × β))
    (m : List (String × β)) (k : String) (v : β)
    (hall : ∀ a ∈ as, a.1 = k → a.2 = v) (hex : ∃ a ∈ as, a.1 = k) :
    (as.foldl (fun m a => mapSet m a.1 a.2) m).lookup k = some v := by
  induction as generalizing m with
  | nil => obtain ⟨a, ha, _⟩ := hex; simp at ha
  | cons a rest ih =>
    rw [List.foldl_cons]
    by_cases hr : ∃ b ∈ rest, b.1 = k
    · exact ih _ (fun b hb => hall b (List.mem_cons_of_mem _ hb)) hr
    · have habs : ∀ b ∈ rest, b.1 ≠ k := fun b hb e => hr ⟨b, hb, e⟩
      obtain ⟨b, hb, hbk⟩ := hex
      have hba : b = a := by
        rcases List.mem_cons.1 hb with h | h
        · exact h
        · exact absurd hbk (habs b h)
      subst hba
      rw [lookup_foldl_mapSet_of_absent rest _ k habs, lookup_mapSet, if_pos hbk.symm,
        hall b (List.mem_cons_self _ _) hbk]

theorem mem_of_lookup_eq_some {β : Type} (l : List (String × β)) (k : String) (v : β)
    (h : l.lookup k = some v) : (k, v) ∈ l := by
  induction l with
  | nil => simp [List.lookup] at h
  | cons e rest ih =>
    obtain ⟨k1, v1⟩ := e
    rw [lookup_cons_ite] at h
    by_cases hk : k = k1
    · rw [if_pos hk] at h
      cases h
      rw [hk]
      exact List.mem_cons_self _ _
    · rw [if_neg hk] at h
      exact List.mem_cons_of_mem _ (ih h)

theorem lookup_eq_some_of_mem {β : Type} (l : List (String × β)) (k : String) (v : β)
    (hnd : (l.map Prod.fst).Nodup) (h : (k, v) ∈ l) : l.lookup k = some v := by
  induction l with
  | nil => simp at h
  | cons e rest ih =>
    obtain ⟨k1, v1⟩ := e
    rw [List.map_cons, List.nodup_cons] at hnd
    rw [lookup_cons_ite]
    rcases List.mem_cons.1 h with h1 | h1
    · cases h1
      rw [if_pos rfl]
    · have hne : k ≠ k1 := by
        intro e
        apply hnd.1
        rw [← e]
        exact List.mem_map.2 ⟨(k, v), h1, rfl⟩
      rw [if_neg hne]
      exact ih hnd.2 h1

theorem not_mem_keys_of_lookup_eq_none {β : Type} (l : List (String × β)) (k : String)
    (h : l.lookup k = none) : ∀ a ∈ l, a.1 ≠ k := by
  induction l with
  | nil => intro a ha; simp at ha
  | cons e rest ih =>
    obtain ⟨k1, v1⟩ := e
    rw [lookup_cons_ite] at h
    by_cases hk : k = k1
    · rw [if_pos hk] at h
      cases h
    · rw [if_neg hk] at h
      intro a ha
      rcases List.mem_cons.1 ha with h1 | h1
      · rw [h1]
        exact fun e => hk e.symm
      · exact ih h a h1

theorem keys_mapSet {β : Type} (m : List (String × β)) (k : String) (v : β) :
    (mapSet m k v).map Prod.fst
      = if k ∈ m.map Prod.fst then m.map Prod.fst else m.map Prod.fst ++ [k] := by
  induction m with
  | nil => simp [mapSet]
  | cons e rest ih =>
    obtain ⟨k1, v1⟩ := e
    by_cases h1 : k1 = k
    · subst h1
      simp [mapSet]
    · have h2 : ¬ k = k1 := fun e => h1 e.symm
      rw [mapSet, if_neg h1, List.map_cons, ih]
      by_cases h3 : k ∈ rest.map Prod.fst
      · simp [h3]
      · simp [h3, h2]

theorem nodup_keys_mapSet {β : Type} (m : List (String × β)) (k : String) (v : β)
    (h : (m.map Prod.fst).Nodup) : ((mapSet m k v).map Prod.fst).Nodup := by
  rw [keys_mapSet]
  by_cases hk : k ∈ m.map Prod.fst
  · rw [if_pos hk]
    exact h
  · rw [if_neg hk, List.nodup_append]
    refine ⟨h, List.nodup_singleton k, ?_⟩
    intro a ha hb
    rw [List.mem_singleton] at hb
    exact hk (hb ▸ ha)

theorem nodup_keys_foldl_mapSet {α β : Type} (kf : α → String) (vf : α → β) (as : List α)
    (m : List (String × β)) (h : (m.map Prod.fst).Nodup) :
    ((as.foldl (fun m a => mapSet m (kf a) (vf a)) m).map Prod.fst).Nodup := by
  induction as generalizing m with
  | nil => exact h
  | cons a rest ih => exact ih _ (nodup_keys_mapSet m _ _ h)

theorem inspectDir_nodup_keys (parseDir : ParseDir) (fuel : Nat) (path : String)
    (r : Registry) (h : inspectDir parseDir fuel path = some r) : (r.map Prod.fst).Nodup := by
  cases fuel with
  | zero => simp [inspectDir] at h
  | succ fuel =>
    rw [inspectDir] at h
    cases hp : parseDir path with
    | none => simp [hp] at h
    | some pkgmap =>
      simp only [hp] at h
      split at h
      · cases h
        exact nodup_keys_foldl_mapSet (fun pkg => pkg.1) (fun pkg => inspectBucket pkg.2.specs)
          pkgmap [] List.nodup_nil
      · cases h

theorem pkgTypesOf_cons_some (parseDir : ParseDir) (fuel : Nat) (path : String)
    (rest : List String) (acc reg : Registry)
    (h : pkgTypesOf parseDir fuel (path :: rest) acc = some reg) :
    ∃ found, inspectDir parseDir fuel path = some found ∧
      pkgTypesOf parseDir fuel rest
        (found.foldl (fun pkgTypes entry => mapSet pkgTypes entry.1 entry.2) acc) = some reg := by
  rw [pkgTypesOf] at h
  cases hf : inspectDir parseDir fuel path with
  | none => simp [hf] at h
  | some found => rw [hf] at h; exact ⟨found, rfl, h⟩

theorem pkgTypesOf_append (parseDir : ParseDir) (fuel : Nat) (pre rest : List String)
    (acc reg : Registry) (h : pkgTypesOf parseDir fuel (pre ++ rest) acc = some reg) :
    ∃ mid, pkgTypesOf parseDir fuel pre acc = some mid ∧
      pkgTypesOf parseDir fuel rest mid = some reg := by
  induction pre generalizing acc with
  | nil => exact ⟨acc, rfl, h⟩
  | cons p ps ih =>
    obtain ⟨found, hf, hrest⟩ := pkgTypesOf_cons_some parseDir fuel p (ps ++ rest) acc reg h
    obtain ⟨mid, h1, h2⟩ := ih _ hrest
    refine ⟨mid, ?_, h2⟩
    rw [pkgTypesOf, hf]
    exact h1

theorem pkgTypesOf_nodup_keys (parseDir : ParseDir) (fuel : Nat) (paths : List String)
    (acc reg : Registry) (h : pkgTypesOf parseDir fuel paths acc = some reg)
    (hacc : (acc.map Prod.fst).Nodup) : (reg.map Prod.fst).Nodup := by
  induction paths generalizing acc with
  | nil => simp [pkgTypesOf] at h; subst h; exact hacc
  | cons p ps ih =>
    obtain ⟨found, _, hrest⟩ := pkgTypesOf_cons_some parseDir fuel p ps acc reg h
    exact ih _ hrest (nodup_keys_foldl_mapSet (fun e => e.1) (fun e => e.2) found acc hacc)

theorem pkgTypesOf_lookup_preserved (parseDir : ParseDir) (fuel : Nat) (paths : List String)
    (acc reg : Registry) (p : String) (h : pkgTypesOf parseDir fuel paths acc = some reg)
    (hno : ∀ q ∈ paths, ∀ rq, inspectDir parseDir fuel q = some rq → rq.lookup p = none) :
    reg.lookup p = acc.lookup p := by
  induction paths generalizing acc with
  | nil => simp [pkgTypesOf] at h; subst h; rfl
  | cons q qs ih =>
    obtain ⟨found, hf, hrest⟩ := pkgTypesOf_cons_some parseDir fuel q qs acc reg h
    rw [ih _ hrest (fun q1 hq1 => hno q1 (List.mem_cons_of_mem _ hq1))]
    exact lookup_foldl_mapSet_of_absent found acc p
      (not_mem_keys_of_lookup_eq_none found p (hno q (List.mem_cons_self _ _) found hf))

/-- With no parse error and no import, `inspectDir` returns for any positive
fuel. -/
theorem inspectDir_succ_of_no_imports (parseDir : ParseDir) (fuel : Nat) (path : String)
    (pkgmap : List (String × ParsedPackage)) (hp : parseDir path = some pkgmap)
    (hi : ∀ pkg ∈ pkgmap, pkg.2.imports = []) :
    inspectDir parseDir (fuel + 1) path
      = some (pkgmap.foldl (fun types pkg => mapSet types pkg.1 (inspectBucket pkg.2.specs))
          []) := by
  rw [inspectDir, hp]
  have hall : pkgmap.all (fun pkg =>
      pkg.2.imports.all (fun n => (inspectDir parseDir fuel n).isSome)) = true := by
    rw [List.all_eq_true]
    intro pkg hpkg
    rw [hi pkg hpkg]
    rfl
  simp only [hall, if_true]

/-- With no parse error and no import on any path, the loop of `main` completes
for any positive fuel. -/
theorem pkgTypesOf_isSome_of_no_imports (parseDir : ParseDir) (fuel : Nat)
    (paths : List String) (acc : Registry)
    (h : ∀ q ∈ paths, ∃ pkgmap, parseDir q = some pkgmap ∧ ∀ pkg ∈ pkgmap, pkg.2.imports = []) :
    ∃ reg, pkgTypesOf parseDir (fuel + 1) paths acc = some reg := by
  induction paths generalizing acc with
  | nil => exact ⟨acc, rfl⟩
  | cons q qs ih =>
    obtain ⟨pkgmap, hp, hi⟩ := h q (List.mem_cons_self _ _)
    rw [pkgTypesOf, inspectDir_succ_of_no_imports parseDir fuel q pkgmap hp hi]
    exact ih _ (fun q1 hq1 => h q1 (List.mem_cons_of_mem _ hq1))

/-- C20: when the loop of `main` completes, the bucket of a package name `p` in
the final registry is the bucket that the last path yielding `p` gave for it,
whatever the earlier paths gave: it is the only bucket under `p`, a name absent
from it is absent from the registry, and every node statement of package `p`
is that of a declaration of this bucket. The loop does complete, for any
positive fuel, when no path has a parse error or an import. -/
theorem main_merge_replaces (parseDir : ParseDir) (fuel : Nat) (pre post : List String)
    (path p : String) (b : List (String × namedType)) (found reg : Registry)
    (hrun : pkgTypesOf parseDir fuel (pre ++ path :: post) [] = some reg)
    (hfound : inspectDir parseDir fuel path = some found) (hb : found.lookup p = some b)
    (hpost : ∀ q ∈ post, ∀ rq, inspectDir parseDir fuel q = some rq → rq.lookup p = none) :
    reg.lookup p = some b ∧
      (∀ types, (p, types) ∈ reg → types = b) ∧
      (∀ name, b.lookup name = none →
        ∀ types, (p, types) ∈ reg → types.lookup name = none) ∧
      (∀ out, dotRender reg = some out → ∀ name shape label,
        Stmt.node p name shape label ∈ out → ∃ e ∈ b, e.2.Ident = name) ∧
      main parseDir fuel (pre ++ path :: post) = dotRender reg ∧
      ((∀ q ∈ pre ++ path :: post,
          ∃ pkgmap, parseDir q = some pkgmap ∧ ∀ pkg ∈ pkgmap, pkg.2.imports = []) →
        ∀ n, ∃ r, pkgTypesOf parseDir (n + 1) (pre ++ path :: post) [] = some r) := by
  obtain ⟨mid, _, h2⟩ := pkgTypesOf_append parseDir fuel pre (path :: post) [] reg hrun
  obtain ⟨found1, hf1, hrest⟩ := pkgTypesOf_cons_some parseDir fuel path post mid reg h2
  rw [hfound] at hf1
  cases hf1
  have hndf : (found.map Prod.fst).Nodup := inspectDir_nodup_keys parseDir fuel path found hfound
  have hmem : (p, b) ∈ found := mem_of_lookup_eq_some found p b hb
  have hlook : reg.lookup p = some b := by
    rw [pkgTypesOf_lookup_preserved parseDir fuel post _ reg p hrest hpost]
    apply lookup_foldl_mapSet_of_last found mid p b
    · intro a ha hk
      obtain ⟨k1, v1⟩ := a
      simp only at hk ⊢
      subst hk
      exact lookup_unique found k1 v1 b hndf ha hmem
    · exact ⟨(p, b), hmem, rfl⟩
  have hndr : (reg.map Prod.fst).Nodup :=
    pkgTypesOf_nodup_keys parseDir fuel _ [] reg hrun List.nodup_nil
  have htypes : ∀ types, (p, types) ∈ reg → types = b := by
    intro types ht
    have := lookup_eq_some_of_mem reg p types hndr ht
    rw [hlook] at this
    cases this
    rfl
  refine ⟨hlook, htypes, ?_, ?_, ?_,
    fun h n => pkgTypesOf_isSome_of_no_imports parseDir n _ [] h⟩
  · intro name hname types ht
    rw [htypes types ht]
    exact hname
  · intro out hout name shape label hmemn
    have hx := (mem_nodesOf out p name shape label).2 hmemn
    rw [(dotRender_parts reg out hout).1] at hx
    obtain ⟨pkg, hpkg, hx1⟩ := List.mem_flatMap.1 hx
    obtain ⟨e, he, hx2⟩ := List.mem_flatMap.1 hx1
    have hs := nodeStmt_source _ _ _ hx2
    simp only [Prod.mk.injEq] at hs
    obtain ⟨p1, ts⟩ := pkg
    simp only at hs he
    have hp1 : p1 = p := hs.1.symm
    subst hp1
    rw [htypes ts hpkg] at he
    exact ⟨e, he, hs.2.symm⟩
  · have hne : ¬ (pre ++ path :: post).length = 0 := by simp
    rw [main, if_neg hne, hrun]

/-- C20, witness: `dir1` and `dir2` both hold the package `p`; the final bucket
is that of `dir2`, and `Old`, declared under `dir1` only, is absent. -/
theorem main_merge_replaces_witness :
    pkgTypesOf parseTwoDirs 1 ["dir1", "dir2"] []
        = some [("p", [("New", ⟨"New", .Ident "string"⟩),
                       ("Shared", ⟨"Shared", .Ident "string"⟩)])] ∧
      inspectDir parseTwoDirs 1 "dir1"
        = some [("p", [("Old", ⟨"Old", .Ident "int"⟩), ("Shared", ⟨"Shared", .Ident "int"⟩)])] ∧
      ∀ types, ("p", types) ∈ [("p", [("New", (⟨"New", .Ident "string"⟩ : namedType)),
                       ("Shared", ⟨"Shared", .Ident "string"⟩)])] →
        types.lookup "Old" = none :=
  ⟨rfl, rfl,
    (main_merge_replaces parseTwoDirs 1 ["dir1"] [] "dir2" "p"
      [("New", ⟨"New", .Ident "string"⟩), ("Shared", ⟨"Shared", .Ident "string"⟩)]
      [("p", [("New", ⟨"New", .Ident "string"⟩), ("Shared", ⟨"Shared", .Ident "string"⟩)])]
      [("p", [("New", ⟨"New", .Ident "string"⟩), ("Shared", ⟨"Shared", .Ident "string"⟩)])]
      rfl rfl rfl (fun q hq => absurd hq (List.not_mem_nil q))).2.2.1 "Old" rfl⟩

/-! ### The label of an interface node -/

theorem interfaceNames_eq_intercalate (ns : List String) (h : ns.length ≤ 1) :
    interfaceNames 0 ns = ",".intercalate ns := by
  match ns, h with
  | [], _ => rfl
  | [n], _ => simp [interfaceNames, String.intercalate, String.intercalate.go]
  | _ :: _ :: _, h => simp at h

theorem interfaceCompartments_cons (i : Nat) (f : FieldEntry) (fs : List FieldEntry)
    (h : f.1.length ≤ 1) :
    interfaceCompartments i (f :: fs)
      = (if i > 0 then "|" else "") ++ interfaceCompartment i f
        ++ interfaceCompartments (i + 1) fs := by
  rw [interfaceCompartments, interfaceCompartment, interfaceNames_eq_intercalate f.1 h]
  simp only [String.append_assoc]

theorem interfaceCompartments_go (acc : String) (fs : List FieldEntry) (i : Nat)
    (h : ParsedMethods fs) :
    String.intercalate.go acc "|"
        ((fs.enumFrom (i + 1)).map (fun p => interfaceCompartment p.1 p.2))
      = acc ++ interfaceCompartments (i + 1) fs := by
  induction fs generalizing acc i with
  | nil => simp [String.intercalate.go, interfaceCompartments]
  | cons f rest ih =>
    rw [List.enumFrom_cons, List.map_cons, String.intercalate.go,
      ih _ (i + 1) (fun g hg => h g (List.mem_cons_of_mem _ hg)),
      interfaceCompartments_cons _ _ _ (h f (List.mem_cons_self _ _))]
    simp [String.append_assoc]

theorem interfaceCompartments_eq_intercalate (methods : List FieldEntry)
    (h : ParsedMethods methods) :
    interfaceCompartments 0 methods
      = "|".intercalate (methods.enum.map (fun p => interfaceCompartment p.1 p.2)) := by
  cases methods with
  | nil => rfl
  | cons f rest =>
    rw [List.enum, List.enumFrom_cons, List.map_cons, String.intercalate,
      interfaceCompartments_go _ rest 0 (fun g hg => h g (List.mem_cons_of_mem _ hg)),
      interfaceCompartments_cons _ _ _ (h f (List.mem_cons_self _ _))]
    simp

theorem nodeStmt_interface (pkg name : String) (methods : List FieldEntry)
    (h : ParsedMethods methods) :
    nodeStmt pkg ⟨name, .InterfaceType (some methods)⟩
      = some (.node pkg name "Mrecord" (interfaceLabel name methods)) := by
  simp only [nodeStmt, interfaceLabel, interfaceCompartments_eq_intercalate methods h]

/-- C17: an Interface declaration `D` of package `P` whose method entries are as
`go/parser` builds them (one name for a method, none for an embedded type) gets
one node statement, of shape `Mrecord`; compartment `i` of its label is the tag
`<f i>`, the names joined by commas, a space when there is a name, and the text
of the type, which for a method is its function-type text; the tags run from 0
in declaration order. -/
theorem interface_node_label (reg : Registry) (out : List Stmt) (P : String)
    (types : List (String × namedType)) (key : String) (D : namedType)
    (methods : List FieldEntry)
    (hwf : WellFormed reg) (hout : dotRender reg = some out)
    (hP : (P, types) ∈ reg) (hD : (key, D) ∈ types)
    (hshape : D.Typ = .InterfaceType (some methods)) (hnames : ParsedMethods methods) :
    (∀ shape label, Stmt.node P D.Ident shape label ∈ out ↔
        shape = "Mrecord" ∧ label = interfaceLabel D.Ident methods) ∧
      (nodesOf out).count (P, D.Ident, "Mrecord", interfaceLabel D.Ident methods) = 1 ∧
      (∀ i f, methods[i]? = some f →
        (methods.enum.map (fun p => interfaceCompartment p.1 p.2))[i]?
          = some ("<f" ++ Nat.repr i ++ ">" ++ ",".intercalate f.1
              ++ (if f.1.length > 0 then " " else "") ++ toString f.2)) ∧
      (∀ n : String, ",".intercalate [n] = n) ∧
      (∀ ps rs, toString (.FuncType ps rs)
        = "func(" ++ toStringParams ps ++ ")" ++ toStringResults rs) := by
  have hcount : ∀ x : String × String × String × String, (x.1, x.2.1) = (P, D.Ident) →
      (nodesOf out).count x = (nodesOf (nodeStmt P D).toList).count x := by
    intro x hx
    rw [(dotRender_parts reg out hout).1]
    exact count_of_declaration (fun pkg d => nodesOf (nodeStmt pkg d).toList)
      (fun x => (x.1, x.2.1)) nodeStmt_source reg hwf P types key D hP hD x hx
  have hnode : nodesOf (nodeStmt P D).toList
      = [(P, D.Ident, "Mrecord", interfaceLabel D.Ident methods)] := by
    obtain ⟨ident, t⟩ := D
    simp only at hshape
    subst hshape
    rw [nodeStmt_interface P ident methods hnames]
    rfl
  refine ⟨?_, ?_, ?_, ?_, ?_⟩
  · intro shape label
    rw [← mem_nodesOf, ← List.count_pos_iff, hcount _ rfl, hnode, List.count_pos_iff]
    simp
  · rw [hcount _ rfl, hnode]
    simp
  · intro i f hf
    simp [List.enum, List.getElem?_enumFrom, hf, interfaceCompartment]
  · intro n
    simp [String.intercalate, String.intercalate.go]
  · intro ps rs
    simp [toString]

/-- C17, witness: the interface `Shape` with two methods and an embedded type. -/
theorem interface_node_label_witness :
    WellFormed regShape ∧ dotRender regShape = some outShape ∧
      (nodesOf outShape).count
        ("p", "Shape", "Mrecord",
          interfaceLabel "Shape"
            [(["Area"], .FuncType (some []) (some [([], .Ident "float64")])),
             (["Scale"], .FuncType (some [(["by"], .Ident "float64")])
                (some [([], .Ident "Shape")])),
             ([], .Ident "Stringer")]) = 1 :=
  have hwf : WellFormed regShape := by
    unfold WellFormed regShape
    decide
  ⟨hwf, rfl,
    (interface_node_label regShape outShape "p" _ "Shape" _ _ hwf rfl (List.Mem.head _)
      (List.Mem.head _) rfl (by
        intro f hf
        simp only [List.mem_cons, List.mem_singleton, List.not_mem_nil, or_false] at hf
        rcases hf with rfl | rfl | rfl <;> decide)).2.1⟩

end GoErd
